import Mathlib

/-!
# Bit streaming: `pack_sensor_data` (src/bitstreaming/bit_streaming_sol.c)

A shallow embedding of the 5-bit packer and the properties of its output.

Conventions of the embedding

* A `uint8_t` array reached through a pointer is a `List Nat`; the list is the whole object
  the pointer gives access to.  `input_len` is the length of the `input` list (the `int i`
  loop counter is taken unbounded, which is exact for fewer than `2^31` symbols).
* An access `output[current_byte]` outside the object is undefined behaviour in C; the
  embedding returns `none` there.
* `current_byte` is a `uint8_t`: its increment is taken modulo `2^8`.
  `current_bit` is an `int8_t` that only takes the values `7, 6, ..., 0, -1`.
* The stored value of `output[current_byte] |= ...` is converted back to `uint8_t`,
  hence the `% 256`.
-/

namespace BitStreaming

/-- The local variables of `pack_sensor_data` together with the bytes behind `output`. -/
structure PackState where
  output : List Nat
  current_byte : Nat
  current_bit : Int
  deriving DecidableEq, Repr

/-- Body of the inner loop (lines 47-59) for one value of `j`. -/
def pack_bit (post_masked_data j : Nat) (s : PackState) : Option PackState :=
  let bit_to_out := (post_masked_data >>> j) &&& 0x01
  if h : s.current_byte < s.output.length then
    let output := s.output.set s.current_byte
      ((s.output[s.current_byte] ||| (bit_to_out <<< s.current_bit.toNat)) % 256)
    let current_bit := s.current_bit - 1
    if current_bit < 0 then
      some { output := output, current_byte := (s.current_byte + 1) % 256, current_bit := 7 }
    else
      some { output := output, current_byte := s.current_byte, current_bit := current_bit }
  else
    none

/-- The inner loop `for (int j = 4; j >= 0; j--)` (lines 45-60); `inner_loop d n` runs the
iterations `j = n - 1, ..., 0`, so the source's loop is `inner_loop d 5`. -/
def inner_loop (post_masked_data : Nat) : Nat → PackState → Option PackState
  | 0, s => some s
  | j + 1, s => (pack_bit post_masked_data j s).bind (inner_loop post_masked_data j)

/-- The outer loop `for (int i = 0; i < input_len; i++)` (lines 41-61) over the remaining
symbols. -/
def outer_loop : List Nat → PackState → Option PackState
  | [], s => some s
  | x :: rest, s => (inner_loop (x &&& 0x1F) 5 s).bind (outer_loop rest)

/-- The state in which the loops finish, starting from `current_byte = 0`,
`current_bit = 7` (lines 38-39). -/
def pack_final (input output : List Nat) : Option PackState :=
  outer_loop input { output := output, current_byte := 0, current_bit := 7 }

/-- The function `pack_sensor_data` (lines 36-62).  It returns `void`; what the caller
observes is the content of `output` afterwards.  `output_len` is a parameter the body never
reads. -/
def pack_sensor_data (input : List Nat) (output : List Nat) (_output_len : Nat) :
    Option (List Nat) :=
  (pack_final input output).map PackState.output

/-- Number of bytes needed for `n` symbols of 5 bits: `ceil(5 * n / 8)`. -/
def bytes_needed (n : Nat) : Nat := (5 * n + 7) / 8

/-- Modelled from the spec: the decoder of property P4, which the repository does not
contain.  `unpack_symbol buf i` reads the `i`-th 5-bit group of `buf`, most significant bit
first: stream bit `k` is bit `7 - k % 8` of `buf[k / 8]`. -/
def unpack_symbol (buf : List Nat) (i : Nat) : Nat :=
  (List.range 5).foldl
    (fun acc m => 2 * acc + ((buf.getD ((5 * i + m) / 8) 0 >>> (7 - (5 * i + m) % 8)) &&& 1)) 0

/-- Modelled from the spec: unpacking `n` consecutive 5-bit groups, in order. -/
def unpack (buf : List Nat) (n : Nat) : List Nat :=
  (List.range n).map (unpack_symbol buf)

/-- Bit `b` of byte `i` of a buffer (absent bytes read as 0). -/
def bit_of (out : List Nat) (i b : Nat) : Bool := (out.getD i 0).testBit b

/-- The cursor of state `s` stands at stream position `k`: `k / 8` bytes (modulo `2^8`,
the range of `current_byte`) and `k % 8` bits of the current byte are behind it. -/
def cursor_at (s : PackState) (k : Nat) : Prop :=
  s.current_byte = k / 8 % 256 ∧ s.current_bit = 7 - ((k % 8 : Nat) : Int)

/-- Stream bit `m` of the input: bit `4 - m % 5` of symbol `m / 5`. -/
def stream_bit (input : List Nat) (m : Nat) : Bool :=
  (input.getD (m / 5) 0).testBit (4 - m % 5)

end BitStreaming

/-!
# Priority bitmap: src/scheduler/scheduler.c

The global `ready_tasks_bitmap` (a `uint32_t`) is passed in and returned.  `1UL` is an
`unsigned long`, taken 64 bits wide; the results are the same for a 32-bit `unsigned long`,
since only the low 32 bits reach the bitmap.
-/

namespace Scheduler

/-- Width in bits of `unsigned long`, the type of the constant `1UL`. -/
def ULONG_BITS : Nat := 64

/-- The function `set_task_ready` (lines 8-13): the new value of `ready_tasks_bitmap`. -/
def set_task_ready (ready_tasks_bitmap priority : Nat) : Nat :=
  if priority < 32 then
    (ready_tasks_bitmap ||| ((1 <<< priority) % 2 ^ ULONG_BITS)) % 2 ^ 32
  else
    ready_tasks_bitmap

/-- The function `clear_task_ready` (lines 16-21): the new value of `ready_tasks_bitmap`;
`~x` on an `unsigned long` is `2 ^ ULONG_BITS - 1 - x`. -/
def clear_task_ready (ready_tasks_bitmap priority : Nat) : Nat :=
  if priority < 32 then
    (ready_tasks_bitmap &&& (2 ^ ULONG_BITS - 1 - (1 <<< priority) % 2 ^ ULONG_BITS)) % 2 ^ 32
  else
    ready_tasks_bitmap

/-- Number of 0-bits of `x` above its highest 1-bit among the bits `n - 1, ..., 0`,
scanning from bit `n - 1` down. -/
def clz_scan : Nat → Nat → Nat
  | 0, _ => 0
  | n + 1, x => if x.testBit n then 0 else clz_scan n x + 1

/-- The compiler builtin `__builtin_clz` on a 32-bit `unsigned int`: the number of leading
0-bits, starting at the most significant bit; the result is undefined for 0. -/
def builtin_clz (x : Nat) : Option Nat :=
  if x = 0 then none else some (clz_scan 32 x)

/-- Conversion of an unsigned value to `int8_t`. -/
def to_int8 (v : Nat) : Int :=
  if v % 256 < 128 then ((v % 256 : Nat) : Int) else ((v % 256 : Nat) : Int) - 256

/-- The function `get_highest_priority_task` (lines 24-33).  The test
`ready_tasks_bitmap < 0` is on an unsigned value; `31 - leading_zeros` is computed in
`uint32_t` and returned as `int8_t`. -/
def get_highest_priority_task (ready_tasks_bitmap : Nat) : Option Int :=
  if (ready_tasks_bitmap : Int) < 0 then
    some (-1)
  else
    (builtin_clz ready_tasks_bitmap).map
      (fun leading_zeros => to_int8 ((31 + 2 ^ 32 - leading_zeros) % 2 ^ 32))

end Scheduler

/-!
# Button debouncer: src/debounce/debounce.c

The global `system_millis` (a `uint32_t`) is an argument of `update_debounce`; the structure
`*db` is passed in and returned together with the `bool` result.  Times are `uint32_t`
values, below `2 ^ 32`, and their difference is taken modulo `2 ^ 32`.
-/

namespace Debounce

/-- The macro `DEBOUNCE_THRESHOLD_MS` (line 29). -/
def DEBOUNCE_THRESHOLD_MS : Nat := 50

/-- The macro `BUTTON_PIN_LOW` (line 30). -/
def BUTTON_PIN_LOW : Int := 0

/-- The macro `BUTTON_PIN_HIGH` (line 31). -/
def BUTTON_PIN_HIGH : Int := 1

/-- The enumeration `button_state_t` (lines 33-38). -/
inductive button_state_t where
  | STATE_RELEASED
  | STATE_MAYBE_PRESSED
  | STATE_PRESSED
  | STATE_MAYBE_RELEASED
  deriving DecidableEq, Repr

/-- The structure `debouncer_t` (lines 40-44). -/
structure debouncer_t where
  state : button_state_t
  last_tick : Nat
  stable_output : Bool
  deriving DecidableEq, Repr

/-- The `switch` of `update_debounce` (lines 61-92): the updated structure, and `some true`
when the `return true` of line 74 is taken. -/
def update_switch (system_millis : Nat) (db : debouncer_t) (is_active : Bool) :
    debouncer_t × Option Bool :=
  match db.state with
  | .STATE_RELEASED =>
    if is_active then
      ({ db with state := .STATE_MAYBE_PRESSED, last_tick := system_millis }, none)
    else (db, none)
  | .STATE_MAYBE_PRESSED =>
    if !is_active then
      ({ db with state := .STATE_RELEASED }, none)
    else if (system_millis + 2 ^ 32 - db.last_tick) % 2 ^ 32 ≥ DEBOUNCE_THRESHOLD_MS then
      ({ db with state := .STATE_PRESSED }, some true)
    else (db, none)
  | .STATE_PRESSED =>
    if !is_active then
      ({ db with state := .STATE_MAYBE_RELEASED, last_tick := system_millis }, none)
    else (db, none)
  | .STATE_MAYBE_RELEASED =>
    if is_active then
      ({ db with state := .STATE_PRESSED }, none)
    else if (system_millis + 2 ^ 32 - db.last_tick) % 2 ^ 32 ≥ DEBOUNCE_THRESHOLD_MS then
      ({ db with state := .STATE_RELEASED }, none)
    else (db, none)

/-- The function `update_debounce` (lines 55-95): the structure after the call and the
returned `bool`. -/
def update_debounce (system_millis : Nat) (db : debouncer_t) (raw_level : Int) :
    debouncer_t × Bool :=
  let is_active := decide (raw_level = BUTTON_PIN_HIGH)
  let r := update_switch system_millis db is_active
  match r.2 with
  | some b => (r.1, b)
  | none => (r.1, decide (r.1.state = .STATE_PRESSED))

/-- The calls `update_debounce` on a sequence of samples `(system_millis, raw_level)`, in
order: for each call the structure after it and the value it returned. -/
def trace (db : debouncer_t) : List (Nat × Int) → List (debouncer_t × Bool)
  | [] => []
  | (t, lvl) :: rest =>
    update_debounce t db lvl :: trace (update_debounce t db lvl).1 rest

/-- The structure after all calls on a sequence of samples. -/
def run_samples (db : debouncer_t) : List (Nat × Int) → debouncer_t
  | [] => db
  | (t, lvl) :: rest => run_samples (update_debounce t db lvl).1 rest

/-- Time of sample `k`. -/
def time_at (samples : List (Nat × Int)) (k : Nat) : Nat := (samples.getD k (0, 0)).1

/-- Level of sample `k`. -/
def level_at (samples : List (Nat × Int)) (k : Nat) : Int := (samples.getD k (0, 0)).2

/-- The samples `i, ..., j` are consecutive high samples and the run starts at `i`: no
high sample precedes sample `i`. -/
def high_run (samples : List (Nat × Int)) (i j : Nat) : Prop :=
  (∀ k ≤ j, i ≤ k → level_at samples k = BUTTON_PIN_HIGH) ∧
  (i = 0 ∨ level_at samples (i - 1) ≠ BUTTON_PIN_HIGH)

instance (samples : List (Nat × Int)) (i j : Nat) : Decidable (high_run samples i j) := by
  unfold high_run
  infer_instance

/-- Within each maximal run of consecutive high samples, every sample is less than 50 ms
(difference modulo `2 ^ 32`) after the first sample of the run. -/
def short_high_runs (samples : List (Nat × Int)) : Prop :=
  ∀ j < samples.length, ∀ i ≤ j, high_run samples i j →
    ((time_at samples j : Int) - (time_at samples i : Int)) % 2 ^ 32 < 50

instance (samples : List (Nat × Int)) : Decidable (short_high_runs samples) := by
  unfold short_high_runs
  infer_instance

/-- The samples `i, ..., j` are consecutive low samples (samples that are not high) and the
run starts at `i`: no low sample precedes sample `i`. -/
def low_run (samples : List (Nat × Int)) (i j : Nat) : Prop :=
  (∀ k ≤ j, i ≤ k → level_at samples k ≠ BUTTON_PIN_HIGH) ∧
  (i = 0 ∨ level_at samples (i - 1) = BUTTON_PIN_HIGH)

instance (samples : List (Nat × Int)) (i j : Nat) : Decidable (low_run samples i j) := by
  unfold low_run
  infer_instance

/-- Within each maximal run of consecutive low samples, every sample is less than 50 ms
(difference modulo `2 ^ 32`) after the first sample of the run. -/
def short_low_runs (samples : List (Nat × Int)) : Prop :=
  ∀ j < samples.length, ∀ i ≤ j, low_run samples i j →
    ((time_at samples j : Int) - (time_at samples i : Int)) % 2 ^ 32 < 50

instance (samples : List (Nat × Int)) : Decidable (short_low_runs samples) := by
  unfold short_low_runs
  infer_instance

end Debounce

/-!
# Ring buffer: src/circularbuffer/circular_buffer.c

The handle `*cb` is passed in and returned.  `buffer` is the memory block `raw_mem` as a
list of bytes; a load or store outside of it, and the `%` of lines 66 and 91 when
`capacity` is 0, are undefined behaviour in C and give `none`.  The indices are `size_t`
values; in every state reached from `circ_buf_init` they stay below `capacity`, so that
`tail + 1` and `head + 1` do not overflow.
-/

namespace CircularBuffer

/-- The structure `circ_buf_t` (lines 20-25). -/
structure circ_buf_t where
  buffer : List Nat
  head : Nat
  tail : Nat
  capacity : Nat
  deriving DecidableEq, Repr

/-- The enumeration `cb_status_t` (lines 27-32). -/
inductive cb_status_t where
  | CB_OK
  | CB_EMPTY
  | CB_FULL
  | CB_INVALID
  deriving DecidableEq, Repr

/-- The function `circ_buf_init` (lines 56-62), for a non-null handle. -/
def circ_buf_init (raw_mem : List Nat) (cap : Nat) : circ_buf_t :=
  { buffer := raw_mem, capacity := cap, head := 0, tail := 0 }

/-- The function `circ_buf_push` (lines 64-76): the handle after the call and the status. -/
def circ_buf_push (cb : circ_buf_t) (data : Nat) : Option (circ_buf_t × cb_status_t) :=
  if cb.capacity = 0 then none
  else
    let next := (cb.tail + 1) % cb.capacity
    if next = cb.head then
      some (cb, .CB_FULL)
    else if cb.tail < cb.buffer.length then
      some ({ cb with buffer := cb.buffer.set cb.tail data, tail := next }, .CB_OK)
    else none

/-- The function `circ_buf_pop` (lines 78-93): the handle after the call, the status and
the byte stored through `data`, if any.  `data_null` tells that `data` is `NULL`. -/
def circ_buf_pop (cb : circ_buf_t) (data_null : Bool) :
    Option (circ_buf_t × cb_status_t × Option Nat) :=
  if cb.tail = cb.head then
    some (cb, .CB_EMPTY, none)
  else
    let stored : Option (Option Nat) :=
      if data_null then some none
      else if h : cb.head < cb.buffer.length then some (some cb.buffer[cb.head]) else none
    match stored with
    | none => none
    | some v =>
      if cb.capacity = 0 then none
      else some ({ cb with head := (cb.head + 1) % cb.capacity }, .CB_OK, v)

/-- A call of the interface: `circ_buf_push(&cb, data)`, or `circ_buf_pop(&cb, data)` where
`data_null` tells that `data` is `NULL` (`pop false` is `circ_buf_pop(&cb, &val)`). -/
inductive cb_call where
  | push (data : Nat)
  | pop (data_null : Bool)
  deriving DecidableEq, Repr

/-- A sequence of calls on one handle, in order: the handle after the last call and, for
each call, its status and the byte it delivered through `data`, if any. -/
def run_calls : circ_buf_t → List cb_call →
    Option (circ_buf_t × List (cb_call × cb_status_t × Option Nat))
  | cb, [] => some (cb, [])
  | cb, .push data :: rest =>
    (circ_buf_push cb data).bind fun r =>
      (run_calls r.1 rest).map fun q => (q.1, (.push data, r.2, none) :: q.2)
  | cb, .pop data_null :: rest =>
    (circ_buf_pop cb data_null).bind fun r =>
      (run_calls r.1 rest).map fun q => (q.1, (.pop data_null, r.2.1, r.2.2) :: q.2)

/-- The values of the successful pushes of a run, in order. -/
def pushed_values : List (cb_call × cb_status_t × Option Nat) → List Nat
  | [] => []
  | (.push data, .CB_OK, _) :: rest => data :: pushed_values rest
  | _ :: rest => pushed_values rest

/-- The values delivered by the successful pops of a run, in order. -/
def popped_values : List (cb_call × cb_status_t × Option Nat) → List Nat
  | [] => []
  | (.pop _, .CB_OK, some v) :: rest => v :: popped_values rest
  | _ :: rest => popped_values rest

/-- Number of pushes of a run that returned `CB_OK`. -/
def successful_pushes : List (cb_call × cb_status_t × Option Nat) → Nat
  | [] => 0
  | (.push _, .CB_OK, _) :: rest => successful_pushes rest + 1
  | _ :: rest => successful_pushes rest

/-- Number of pops of a run that returned `CB_OK`. -/
def successful_pops : List (cb_call × cb_status_t × Option Nat) → Nat
  | [] => 0
  | (.pop _, .CB_OK, _) :: rest => successful_pops rest + 1
  | _ :: rest => successful_pops rest

/-- The statuses of the calls of a run, in order. -/
def statuses (events : List (cb_call × cb_status_t × Option Nat)) : List cb_status_t :=
  events.map fun e => e.2.1

/-- Number of elements stored: the distance from `head` to `tail`, going around. -/
def stored_count (cb : circ_buf_t) : Nat :=
  (cb.tail + cb.capacity - cb.head) % cb.capacity

/-- The bytes `buffer[h], buffer[h + 1], ...` (`n` of them), going around at `capacity`. -/
def slots (buffer : List Nat) (capacity : Nat) : Nat → Nat → List Nat
  | _, 0 => []
  | h, n + 1 => buffer.getD h 0 :: slots buffer capacity ((h + 1) % capacity) n

/-- The elements stored in the ring buffer, oldest first: the slots from `head` up to
`tail`. -/
def contents (cb : circ_buf_t) : List Nat :=
  slots cb.buffer cb.capacity cb.head (stored_count cb)

/-- The handle is consistent: the indices are below `capacity` and the memory block holds
`capacity` bytes. -/
def consistent (cb : circ_buf_t) : Prop :=
  0 < cb.capacity ∧ cb.head < cb.capacity ∧ cb.tail < cb.capacity ∧
    cb.capacity ≤ cb.buffer.length

end CircularBuffer

/-!
# Coffee machine state machine: src/statemachines/fsm_logic.c, fsm_logic.h

The structure `*m` is passed in and returned.  `waterLevel` and `currentTemp` are `int`
fields that `FSM_Update` only reads or leaves alone, so no arithmetic is involved.
-/

namespace StateMachines

/-- The enumeration `State_t` (fsm_logic.h, lines 1-6). -/
inductive State_t where
  | STATE_IDLE
  | STATE_HEATING
  | STATE_BREWING
  | STATE_ERROR
  deriving DecidableEq, Repr

/-- The enumeration `Event_t` (fsm_logic.h, lines 8-13). -/
inductive Event_t where
  | EVENT_START_PRESSED
  | EVENT_TEMP_REACHED
  | EVENT_BREW_COMPLETE
  | EVENT_OUT_OF_WATER
  deriving DecidableEq, Repr

/-- The structure `CoffeeMachine` (fsm_logic.h, lines 16-20). -/
structure CoffeeMachine where
  currentState : State_t
  waterLevel : Int
  currentTemp : Int
  deriving DecidableEq, Repr

/-- The function `FSM_Update` (fsm_logic.c, lines 3-25): the machine after the event. -/
def FSM_Update (m : CoffeeMachine) (e : Event_t) : CoffeeMachine :=
  match m.currentState with
  | .STATE_IDLE =>
    if e = .EVENT_START_PRESSED then
      if m.waterLevel > 10 then { m with currentState := .STATE_HEATING }
      else { m with currentState := .STATE_ERROR }
    else m
  | .STATE_HEATING =>
    if e = .EVENT_TEMP_REACHED then { m with currentState := .STATE_BREWING }
    else if e = .EVENT_OUT_OF_WATER then { m with currentState := .STATE_ERROR }
    else m
  | .STATE_BREWING =>
    if e = .EVENT_BREW_COMPLETE then { m with currentState := .STATE_IDLE }
    else m
  | .STATE_ERROR => m

end StateMachines

namespace BitStreaming

/-! ## Supporting lemmas -/

theorem testBit_one_eq (n : Nat) : Nat.testBit 1 n = decide (n = 0) := by
  have h := Nat.testBit_two_pow_sub_one 1 n
  simp only [pow_one, Nat.add_one_sub_one] at h
  rw [h]
  congr 1
  exact propext (by omega)

theorem testBit_or_shift (v d j c b : Nat) (hb : b < 8) :
    ((v ||| (((d >>> j) &&& 0x01) <<< c)) % 256).testBit b
      = (v.testBit b || (decide (b = c) && d.testBit j)) := by
  rw [show (256 : Nat) = 2 ^ 8 from rfl, Nat.testBit_mod_two_pow, Nat.testBit_lor,
    Nat.testBit_shiftLeft, Nat.testBit_and, Nat.testBit_shiftRight, testBit_one_eq]
  simp only [hb, decide_True, Bool.true_and]
  by_cases hbc : b = c
  · subst hbc; simp
  · by_cases hge : b ≥ c
    · have : ¬ (b - c = 0) := by omega
      simp [hbc, this]
    · simp [hbc, hge]

theorem bit_of_set (out : List Nat) (p v i b : Nat) (hp : p < out.length) :
    bit_of (out.set p v) i b = if i = p then v.testBit b else bit_of out i b := by
  unfold bit_of
  rw [List.getD_eq_getElem?_getD, List.getD_eq_getElem?_getD, List.getElem?_set]
  by_cases h : i = p
  · subst h; simp [hp]
  · have h' : ¬ p = i := fun e => h e.symm
    simp [h, h']

theorem bit_of_getElem (out : List Nat) (p b : Nat) (hp : p < out.length) :
    (out[p]).testBit b = bit_of out p b := by
  unfold bit_of
  rw [List.getD_eq_getElem?_getD, List.getElem?_eq_getElem hp]
  rfl

theorem pack_bit_some (d j k : Nat) (s : PackState) (hc : cursor_at s k)
    (hlen : k / 8 % 256 < s.output.length) :
    ∃ s', pack_bit d j s = some s' ∧ cursor_at s' (k + 1) ∧
      s'.output.length = s.output.length ∧
      (∀ i b, b < 8 → bit_of s'.output i b
        = (bit_of s.output i b ||
            (decide (i = k / 8 % 256) && (decide (b = 7 - k % 8) && d.testBit j)))) ∧
      ∀ i, i ≠ k / 8 % 256 → s'.output.getD i 0 = s.output.getD i 0 := by
  obtain ⟨h1, h2⟩ := hc
  have hlen' : s.current_byte < s.output.length := by rw [h1]; exact hlen
  have htn : s.current_bit.toNat = 7 - k % 8 := by rw [h2]; omega
  have key : ∀ i b, b < 8 →
      bit_of (s.output.set s.current_byte
        ((s.output[s.current_byte] ||| (((d >>> j) &&& 0x01) <<< s.current_bit.toNat)) % 256)) i b
        = (bit_of s.output i b ||
            (decide (i = k / 8 % 256) && (decide (b = 7 - k % 8) && d.testBit j))) := by
    intro i b hb
    rw [bit_of_set _ _ _ _ _ hlen', testBit_or_shift _ _ _ _ _ hb, htn, ← h1]
    by_cases hi : i = s.current_byte
    · subst hi
      simp [bit_of_getElem _ _ _ hlen']
    · simp [hi]
  have frame : ∀ i, i ≠ k / 8 % 256 →
      (s.output.set s.current_byte
        ((s.output[s.current_byte] ||| (((d >>> j) &&& 0x01) <<< s.current_bit.toNat)) % 256)).getD
          i 0 = s.output.getD i 0 := by
    intro i hi
    rw [List.getD_eq_getElem?_getD, List.getD_eq_getElem?_getD, List.getElem?_set_ne]
    rw [h1]; exact fun e => hi e.symm
  by_cases hneg : s.current_bit - 1 < 0
  · refine ⟨⟨s.output.set s.current_byte
        ((s.output[s.current_byte] ||| (((d >>> j) &&& 0x01) <<< s.current_bit.toNat)) % 256),
        (s.current_byte + 1) % 256, 7⟩,
      by simp only [pack_bit, hlen', dite_true, hneg, if_true], ?_, ?_, key, frame⟩
    · constructor
      · show (s.current_byte + 1) % 256 = _
        rw [h1]; rw [h2] at hneg; omega
      · show (7 : Int) = _
        rw [h2] at hneg; omega
    · simp
  · refine ⟨⟨s.output.set s.current_byte
        ((s.output[s.current_byte] ||| (((d >>> j) &&& 0x01) <<< s.current_bit.toNat)) % 256),
        s.current_byte, s.current_bit - 1⟩,
      by simp only [pack_bit, hlen', dite_true, hneg, if_false], ?_, ?_, key, frame⟩
    · constructor
      · show s.current_byte = _
        rw [h1]; rw [h2] at hneg; omega
      · show s.current_bit - 1 = _
        rw [h2] at hneg ⊢; omega
    · simp

theorem pack_bit_none (d j k : Nat) (s : PackState) (hc : cursor_at s k)
    (hlen : ¬ k / 8 % 256 < s.output.length) : pack_bit d j s = none := by
  have hlen' : ¬ s.current_byte < s.output.length := by rw [hc.1]; exact hlen
  simp only [pack_bit, hlen', dite_false]


theorem inner_loop_some (d : Nat) : ∀ (n k : Nat) (s : PackState), cursor_at s k →
    (∀ m, m < n → (k + m) / 8 % 256 < s.output.length) →
    ∃ s', inner_loop d n s = some s' ∧ cursor_at s' (k + n) ∧
      s'.output.length = s.output.length ∧
      (∀ i b, b < 8 → (bit_of s'.output i b = true ↔
        bit_of s.output i b = true ∨
          ∃ m, m < n ∧ i = (k + m) / 8 % 256 ∧ b = 7 - (k + m) % 8 ∧
            d.testBit (n - 1 - m) = true)) ∧
      ∀ i, (∀ m, m < n → i ≠ (k + m) / 8 % 256) → s'.output.getD i 0 = s.output.getD i 0 := by
  intro n
  induction n with
  | zero =>
    intro k s hc _
    refine ⟨s, rfl, hc, rfl, ?_, fun _ _ => rfl⟩
    intro i b _
    constructor
    · intro h; exact Or.inl h
    · rintro (h | ⟨m, hm, _⟩)
      · exact h
      · omega
  | succ n ih =>
    intro k s hc hlen
    obtain ⟨s1, e1, c1, l1, b1, f1⟩ :=
      pack_bit_some d n k s hc (by simpa using hlen 0 (by omega))
    obtain ⟨s2, e2, c2, l2, b2, f2⟩ := ih (k + 1) s1 c1 (by
      intro m hm
      rw [l1]
      have := hlen (m + 1) (by omega)
      rwa [show k + 1 + m = k + (m + 1) by omega])
    refine ⟨s2, by simp only [inner_loop, e1, Option.some_bind, e2], ?_, by rw [l2, l1], ?_, ?_⟩
    rotate_left 2
    · intro i hi
      rw [f2 i (fun m hm => by
        have := hi (m + 1) (by omega)
        rwa [show k + 1 + m = k + (m + 1) by omega]), f1 i (by simpa using hi 0 (by omega))]
    · rwa [show k + (n + 1) = k + 1 + n by omega]
    · intro i b hb
      rw [b2 i b hb, b1 i b hb]
      simp only [Bool.or_eq_true, Bool.and_eq_true, decide_eq_true_eq]
      constructor
      · rintro ((h | ⟨hi, hbb, hd⟩) | ⟨m, hm, hi, hbb, hd⟩)
        · exact Or.inl h
        · exact Or.inr ⟨0, by omega, by simpa using hi, by simpa using hbb, by simpa using hd⟩
        · refine Or.inr ⟨m + 1, by omega, ?_, ?_, ?_⟩
          · rw [hi]; congr 2; omega
          · rw [hbb]; congr 2; omega
          · rw [← hd]; congr 1; omega
      · rintro (h | ⟨m, hm, hi, hbb, hd⟩)
        · exact Or.inl (Or.inl h)
        · cases m with
          | zero => exact Or.inl (Or.inr ⟨by simpa using hi, by simpa using hbb, by simpa using hd⟩)
          | succ m =>
            refine Or.inr ⟨m, by omega, ?_, ?_, ?_⟩
            · rw [hi]; congr 2; omega
            · rw [hbb]; congr 2; omega
            · rw [← hd]; congr 1; omega

theorem inner_loop_none (d : Nat) : ∀ (n k : Nat) (s : PackState), cursor_at s k →
    (∃ m, m < n ∧ ¬ (k + m) / 8 % 256 < s.output.length) → inner_loop d n s = none := by
  intro n
  induction n with
  | zero =>
    rintro k s _ ⟨m, hm, _⟩
    omega
  | succ n ih =>
    rintro k s hc ⟨m, hm, hbad⟩
    by_cases h0 : k / 8 % 256 < s.output.length
    · obtain ⟨s1, e1, c1, l1, _, _⟩ := pack_bit_some d n k s hc h0
      have hm0 : m ≠ 0 := by
        rintro rfl
        exact hbad (by simpa using h0)
      have := ih (k + 1) s1 c1 ⟨m - 1, by omega, by
        rw [l1, show k + 1 + (m - 1) = k + m by omega]; exact hbad⟩
      simp only [inner_loop, e1, Option.some_bind, this]
    · simp only [inner_loop, pack_bit_none d n k s hc h0, Option.none_bind]


theorem testBit_mask (x j : Nat) : (x &&& 0x1F).testBit j = (decide (j < 5) && x.testBit j) := by
  rw [show (0x1F : Nat) = 2 ^ 5 - 1 from rfl, Nat.and_pow_two_sub_one_eq_mod,
    Nat.testBit_mod_two_pow]

theorem stream_bit_cons_lt (x : Nat) (rest : List Nat) (m : Nat) (hm : m < 5) :
    stream_bit (x :: rest) m = (x &&& 0x1F).testBit (5 - 1 - m) := by
  unfold stream_bit
  rw [testBit_mask, Nat.div_eq_of_lt hm, Nat.mod_eq_of_lt hm]
  have : 5 - 1 - m < 5 := by omega
  simp [this]

theorem stream_bit_cons_add (x : Nat) (rest : List Nat) (m : Nat) :
    stream_bit (x :: rest) (m + 5) = stream_bit rest m := by
  unfold stream_bit
  rw [show (m + 5) / 5 = m / 5 + 1 by omega, show (m + 5) % 5 = m % 5 by omega]
  rfl

theorem outer_loop_some : ∀ (input : List Nat) (k : Nat) (s : PackState), cursor_at s k →
    (∀ m, m < 5 * input.length → (k + m) / 8 % 256 < s.output.length) →
    ∃ s', outer_loop input s = some s' ∧ cursor_at s' (k + 5 * input.length) ∧
      s'.output.length = s.output.length ∧
      (∀ i b, b < 8 → (bit_of s'.output i b = true ↔
        bit_of s.output i b = true ∨
          ∃ m, m < 5 * input.length ∧ i = (k + m) / 8 % 256 ∧ b = 7 - (k + m) % 8 ∧
            stream_bit input m = true)) ∧
      ∀ i, (∀ m, m < 5 * input.length → i ≠ (k + m) / 8 % 256) →
        s'.output.getD i 0 = s.output.getD i 0 := by
  intro input
  induction input with
  | nil =>
    intro k s hc _
    refine ⟨s, rfl, by simpa using hc, rfl, ?_, fun _ _ => rfl⟩
    intro i b _
    constructor
    · intro h; exact Or.inl h
    · rintro (h | ⟨m, hm, _⟩)
      · exact h
      · simp at hm
  | cons x rest ih =>
    intro k s hc hlen
    have hL : (x :: rest).length = rest.length + 1 := rfl
    obtain ⟨s1, e1, c1, l1, b1, f1⟩ := inner_loop_some (x &&& 0x1F) 5 k s hc (by
      intro m hm
      exact hlen m (by rw [hL]; omega))
    obtain ⟨s2, e2, c2, l2, b2, f2⟩ := ih (k + 5) s1 c1 (by
      intro m hm
      rw [l1]
      have := hlen (m + 5) (by rw [hL]; omega)
      rwa [show k + 5 + m = k + (m + 5) by omega])
    refine ⟨s2, by simp only [outer_loop, e1, Option.some_bind, e2], ?_, by rw [l2, l1], ?_, ?_⟩
    rotate_left 2
    · intro i hi
      rw [f2 i (fun m hm => by
        have := hi (m + 5) (by rw [hL]; omega)
        rwa [show k + 5 + m = k + (m + 5) by omega]), f1 i (fun m hm => hi m (by rw [hL]; omega))]
    · rwa [show k + 5 * (x :: rest).length = k + 5 + 5 * rest.length by rw [hL]; omega]
    · intro i b hb
      rw [b2 i b hb, b1 i b hb]
      constructor
      · rintro ((h | ⟨m, hm, hi, hbb, hd⟩) | ⟨m, hm, hi, hbb, hd⟩)
        · exact Or.inl h
        · exact Or.inr ⟨m, by rw [hL]; omega, hi, hbb, by rw [stream_bit_cons_lt x rest m hm]; exact hd⟩
        · refine Or.inr ⟨m + 5, by rw [hL]; omega, ?_, ?_, ?_⟩
          · rw [hi]; congr 2; omega
          · rw [hbb]; congr 2; omega
          · rw [stream_bit_cons_add]; exact hd
      · rintro (h | ⟨m, hm, hi, hbb, hd⟩)
        · exact Or.inl (Or.inl h)
        · by_cases h5 : m < 5
          · exact Or.inl (Or.inr ⟨m, h5, hi, hbb, by rw [← stream_bit_cons_lt x rest m h5]; exact hd⟩)
          · refine Or.inr ⟨m - 5, by rw [hL] at hm; omega, ?_, ?_, ?_⟩
            · rw [hi]; congr 2; omega
            · rw [hbb]; congr 2; omega
            · rw [← stream_bit_cons_add x rest (m - 5), show m - 5 + 5 = m by omega]; exact hd

theorem outer_loop_none : ∀ (input : List Nat) (k : Nat) (s : PackState), cursor_at s k →
    (∃ m, m < 5 * input.length ∧ ¬ (k + m) / 8 % 256 < s.output.length) →
    outer_loop input s = none := by
  intro input
  induction input with
  | nil =>
    rintro k s _ ⟨m, hm, _⟩
    simp at hm
  | cons x rest ih =>
    rintro k s hc ⟨m, hm, hbad⟩
    have hL : (x :: rest).length = rest.length + 1 := rfl
    by_cases h5 : ∃ m', m' < 5 ∧ ¬ (k + m') / 8 % 256 < s.output.length
    · simp only [outer_loop, inner_loop_none (x &&& 0x1F) 5 k s hc h5, Option.none_bind]
    · have hok : ∀ m', m' < 5 → (k + m') / 8 % 256 < s.output.length := by
        intro m' hm'
        by_contra hcon
        exact h5 ⟨m', hm', hcon⟩
      obtain ⟨s1, e1, c1, l1, _, _⟩ := inner_loop_some (x &&& 0x1F) 5 k s hc hok
      have hm5 : ¬ m < 5 := fun h => hbad (hok m h)
      have := ih (k + 5) s1 c1 ⟨m - 5, by rw [hL] at hm; omega, by
        rw [l1, show k + 5 + (m - 5) = k + m by omega]; exact hbad⟩
      simp only [outer_loop, e1, Option.some_bind, this]

theorem cursor_at_init (output : List Nat) :
    cursor_at { output := output, current_byte := 0, current_bit := 7 } 0 := by
  constructor <;> simp

/-- Description of a completed run of the loops: they complete when every byte index the
cursor visits lies inside the buffer; then the cursor stands at position `5 * N`, the buffer
keeps its length, each of its bits is the previous bit or-ed with the stream bits stored at
that place, and bytes the cursor never visits are unchanged. -/
theorem pack_final_some (input output : List Nat)
    (hlen : ∀ m, m < 5 * input.length → m / 8 % 256 < output.length) :
    ∃ s', pack_final input output = some s' ∧ cursor_at s' (5 * input.length) ∧
      s'.output.length = output.length ∧
      (∀ i b, b < 8 → (bit_of s'.output i b = true ↔
        bit_of output i b = true ∨
          ∃ m, m < 5 * input.length ∧ i = m / 8 % 256 ∧ b = 7 - m % 8 ∧
            stream_bit input m = true)) ∧
      ∀ i, (∀ m, m < 5 * input.length → i ≠ m / 8 % 256) →
        s'.output.getD i 0 = output.getD i 0 := by
  obtain ⟨s', e, c, l, hb, hf⟩ := outer_loop_some input 0 _ (cursor_at_init output)
    (by intro m hm; simpa using hlen m hm)
  refine ⟨s', e, by simpa using c, l, ?_, ?_⟩
  · intro i b hb8
    simpa using hb i b hb8
  · intro i hi
    exact hf i (by intro m hm; simpa using hi m hm)

/-- The same description for the buffer `pack_sensor_data` leaves behind. -/
theorem pack_sensor_data_some (input output : List Nat) (output_len : Nat)
    (hlen : ∀ m, m < 5 * input.length → m / 8 % 256 < output.length) :
    ∃ out', pack_sensor_data input output output_len = some out' ∧
      out'.length = output.length ∧
      (∀ i b, b < 8 → (bit_of out' i b = true ↔
        bit_of output i b = true ∨
          ∃ m, m < 5 * input.length ∧ i = m / 8 % 256 ∧ b = 7 - m % 8 ∧
            stream_bit input m = true)) ∧
      ∀ i, (∀ m, m < 5 * input.length → i ≠ m / 8 % 256) →
        out'.getD i 0 = output.getD i 0 := by
  obtain ⟨s', e, _, l, hb, hf⟩ := pack_final_some input output hlen
  exact ⟨s'.output, by simp only [pack_sensor_data, e, Option.map_some'], l, hb, hf⟩

theorem pack_sensor_data_none (input output : List Nat) (output_len : Nat)
    (hbad : ∃ m, m < 5 * input.length ∧ ¬ m / 8 % 256 < output.length) :
    pack_sensor_data input output output_len = none := by
  obtain ⟨m, hm, hb⟩ := hbad
  have := outer_loop_none input 0 _ (cursor_at_init output) ⟨m, hm, by simpa using hb⟩
  simp only [pack_sensor_data, pack_final, this, Option.map_none']

theorem outer_loop_mask : ∀ (input : List Nat) (s : PackState),
    outer_loop (input.map (fun x => x &&& 0x1F)) s = outer_loop input s := by
  intro input
  induction input with
  | nil => intro s; rfl
  | cons x rest ih =>
    intro s
    have hx : (x &&& 0x1F) &&& 0x1F = x &&& 0x1F := by
      rw [Nat.land_assoc, Nat.and_self]
    simp only [List.map_cons, outer_loop, hx]
    congr 1
    funext s1
    exact ih s1

theorem visited_lt_bytes_needed (n m : Nat) (hm : m < 5 * n) : m / 8 % 256 < bytes_needed n := by
  unfold bytes_needed
  omega

theorem bit_of_zero (output : List Nat) (hz : ∀ x ∈ output, x = 0) (i b : Nat) :
    bit_of output i b = false := by
  unfold bit_of
  rw [List.getD_eq_getElem?_getD]
  by_cases hi : i < output.length
  · rw [List.getElem?_eq_getElem hi]
    have := hz _ (List.getElem_mem hi)
    simp [this]
  · rw [List.getElem?_eq_none (by omega)]
    simp

/-- Below the wrap of `current_byte` (at most 409 symbols, fewer than 2048 bits) the packed
stream in a zeroed buffer is MSB-first and contiguous: stream bit `k` of the input is bit
`7 - k % 8` of byte `k / 8`. -/
theorem pack_contiguous_below_wrap (input output : List Nat) (output_len : Nat)
    (hz : ∀ x ∈ output, x = 0) (hN : input.length ≤ 409)
    (hlen : bytes_needed input.length ≤ output.length) :
    ∃ out', pack_sensor_data input output output_len = some out' ∧
      out'.length = output.length ∧
      ∀ k, k < 5 * input.length → bit_of out' (k / 8) (7 - k % 8) = stream_bit input k := by
  obtain ⟨out', e, l, hb, _⟩ := pack_sensor_data_some input output output_len
    (fun m hm => lt_of_lt_of_le (visited_lt_bytes_needed _ m hm) hlen)
  refine ⟨out', e, l, ?_⟩
  intro k hk
  rw [Bool.eq_iff_iff, hb (k / 8) (7 - k % 8) (by omega), bit_of_zero output hz]
  constructor
  · rintro (h | ⟨m, hm, hi, hbb, hs⟩)
    · cases h
    · have : m = k := by omega
      rw [← this]; exact hs
  · intro hs
    exact Or.inr ⟨k, hk, by omega, rfl, hs⟩

theorem shift_and_one (v c : Nat) : (v >>> c) &&& 1 = (v.testBit c).toNat := by
  rw [Nat.toNat_testBit, Nat.shiftRight_eq_div_pow, Nat.and_one_is_mod]

/-- The value the decoder reads for group `i`, from the five bits of the buffer. -/
theorem unpack_symbol_eq (buf : List Nat) (i : Nat) :
    unpack_symbol buf i
      = 16 * (bit_of buf ((5 * i + 0) / 8) (7 - (5 * i + 0) % 8)).toNat
        + 8 * (bit_of buf ((5 * i + 1) / 8) (7 - (5 * i + 1) % 8)).toNat
        + 4 * (bit_of buf ((5 * i + 2) / 8) (7 - (5 * i + 2) % 8)).toNat
        + 2 * (bit_of buf ((5 * i + 3) / 8) (7 - (5 * i + 3) % 8)).toNat
        + (bit_of buf ((5 * i + 4) / 8) (7 - (5 * i + 4) % 8)).toNat := by
  unfold unpack_symbol bit_of
  rw [show List.range 5 = [0, 1, 2, 3, 4] from rfl]
  simp only [List.foldl_cons, List.foldl_nil, shift_and_one]
  omega

theorem stream_bit_symbol (input : List Nat) (i m : Nat) (hm : m < 5) :
    stream_bit input (5 * i + m) = (input.getD i 0).testBit (4 - m) := by
  unfold stream_bit
  rw [show (5 * i + m) / 5 = i by omega, show (5 * i + m) % 5 = m by omega]

theorem mask_eq_bits (x : Nat) :
    x &&& 0x1F = 16 * (x.testBit 4).toNat + 8 * (x.testBit 3).toNat + 4 * (x.testBit 2).toNat
      + 2 * (x.testBit 1).toNat + (x.testBit 0).toNat := by
  rw [show (0x1F : Nat) = 2 ^ 5 - 1 from rfl, Nat.and_pow_two_sub_one_eq_mod]
  simp only [Nat.toNat_testBit]
  norm_num
  omega

/-- Below the wrap of `current_byte` (at most 409 symbols) the round trip holds: unpacking
the buffer packed from a zeroed buffer gives back `input[i] & 0x1F` for every `i`, in order. -/
theorem round_trip_below_wrap (input output : List Nat) (output_len : Nat)
    (hz : ∀ x ∈ output, x = 0) (hN : input.length ≤ 409)
    (hlen : bytes_needed input.length ≤ output.length) :
    ∃ out', pack_sensor_data input output output_len = some out' ∧
      unpack out' input.length = input.map (fun x => x &&& 0x1F) := by
  obtain ⟨out', e, _, hb⟩ := pack_contiguous_below_wrap input output output_len hz hN hlen
  refine ⟨out', e, ?_⟩
  apply List.ext_getElem
  · simp [unpack]
  · intro i h1 h2
    have hi : i < input.length := by simpa [unpack] using h1
    simp only [unpack, List.getElem_map, List.getElem_range]
    rw [unpack_symbol_eq, mask_eq_bits,
      hb (5 * i + 0) (by omega), hb (5 * i + 1) (by omega), hb (5 * i + 2) (by omega),
      hb (5 * i + 3) (by omega), hb (5 * i + 4) (by omega),
      stream_bit_symbol input i 0 (by omega), stream_bit_symbol input i 1 (by omega),
      stream_bit_symbol input i 2 (by omega), stream_bit_symbol input i 3 (by omega),
      stream_bit_symbol input i 4 (by omega)]
    have hg : input.getD i 0 = input[i] := by
      rw [List.getD_eq_getElem?_getD, List.getElem?_eq_getElem hi]; rfl
    rw [hg]

/-! ## The claims -/

/-- C1 fails on the code at 410 symbols: `current_byte` is a `uint8_t` and wraps to 0 after
byte 255.  For 409 symbols `0x00` followed by `0x1F`, packed into 257 zero bytes, stream bit
`k = 2048` (bit `4 - 2048 % 5 = 1` of symbol `2048 / 5 = 409`) is 1, but bit `7 - 2048 % 8 = 7`
of byte `2048 / 8 = 256` of the output is 0; the bit went to bit 7 of byte 0. -/
theorem C1_cursor_wraps_at_byte_256 :
    bytes_needed (List.replicate 409 0x00 ++ [0x1F]).length ≤ (List.replicate 257 0).length ∧
    ∃ out', pack_sensor_data (List.replicate 409 0x00 ++ [0x1F]) (List.replicate 257 0) 257
        = some out' ∧
      stream_bit (List.replicate 409 0x00 ++ [0x1F]) 2048 = true ∧
      bit_of out' (2048 / 8) (7 - 2048 % 8) = false ∧
      bit_of out' 0 7 = true := by
  have hs : stream_bit (List.replicate 409 0x00 ++ [0x1F]) 2048 = true := by
    unfold stream_bit
    rw [List.getD_eq_getElem?_getD, List.getElem?_append_right
      (by rw [List.length_replicate]), List.length_replicate]
    rfl
  have hL : (List.replicate 409 0x00 ++ [0x1F]).length = 410 := by
    rw [List.length_append, List.length_replicate, List.length_singleton]
  refine ⟨by rw [hL, List.length_replicate]; decide, ?_⟩
  obtain ⟨out', e, _, hb, _⟩ := pack_sensor_data_some (List.replicate 409 0x00 ++ [0x1F])
    (List.replicate 257 0) 257 (fun m _ => by rw [List.length_replicate]; omega)
  refine ⟨out', e, hs, ?_, ?_⟩
  · rw [Bool.eq_false_iff]
    intro h
    rw [hb _ _ (by decide)] at h
    rcases h with h | ⟨m, _, hi, _⟩
    · rw [bit_of_zero _ (fun x hx => List.eq_of_mem_replicate hx)] at h
      cases h
    · omega
  · rw [hb 0 7 (by decide)]
    exact Or.inr ⟨2048, by rw [hL]; decide, by decide, by decide, hs⟩

/-- C2 fails on the code at 410 symbols, by the wrap of the `uint8_t` `current_byte` that
also breaks C1: for 409 symbols `0x00` followed by `0x1F`, packed into 257 zero bytes,
unpacking 410 groups does not give back the symbols masked by `0x1F` (the last two bits of
symbol 409 were stored in byte 0 instead of byte 256). -/
theorem C2_round_trip_breaks_at_byte_256 :
    ∃ out', pack_sensor_data (List.replicate 409 0x00 ++ [0x1F]) (List.replicate 257 0) 257
        = some out' ∧
      unpack out' (List.replicate 409 0x00 ++ [0x1F]).length
        ≠ (List.replicate 409 0x00 ++ [0x1F]).map (fun x => x &&& 0x1F) := by
  have hL : (List.replicate 409 0x00 ++ [0x1F]).length = 410 := by
    rw [List.length_append, List.length_replicate, List.length_singleton]
  obtain ⟨out', e, _, hb, _⟩ := pack_sensor_data_some (List.replicate 409 0x00 ++ [0x1F])
    (List.replicate 257 0) 257 (fun m _ => by rw [List.length_replicate]; omega)
  refine ⟨out', e, ?_⟩
  rw [hL]
  intro heq
  have h409 := congrArg (fun l => l[409]?) heq
  simp only [unpack, List.getElem?_map] at h409
  rw [List.getElem?_range (by decide), List.getElem?_append_right
    (by rw [List.length_replicate]), List.length_replicate] at h409
  have hval : unpack_symbol out' 409 = 0x1F := by
    have := Option.some.inj h409
    exact this
  have hbit : bit_of out' ((5 * 409 + 4) / 8) (7 - (5 * 409 + 4) % 8) = false := by
    rw [Bool.eq_false_iff]
    intro h
    rw [hb _ _ (by decide)] at h
    rcases h with h | ⟨m, _, hi, _⟩
    · rw [bit_of_zero _ (fun x hx => List.eq_of_mem_replicate hx)] at h
      cases h
    · omega
  rw [unpack_symbol_eq, hbit] at hval
  simp only [Bool.toNat_false] at hval
  omega

/-- C3 (Scenario A, Test 1): packing `[0xAE, 0x0D]` into a zeroed 2-byte buffer gives
`[0x73, 0x40]`. -/
theorem C3_scenario_A : pack_sensor_data [0xAE, 0x0D] [0, 0] 2 = some [0x73, 0x40] := by
  decide

/-- C4 (P2, truncation): for every input and every initial output buffer, packing the input
and packing the input with every symbol masked by `0x1F` give the same result, so the bits
above the low five are ignored; and `[0xFF]` packs to `[0xF8]` in a zeroed buffer
(Scenario B, Test 2). -/
theorem C4_truncation :
    (∀ (input output : List Nat) (output_len : Nat),
      pack_sensor_data (input.map (fun x => x &&& 0x1F)) output output_len
        = pack_sensor_data input output output_len) ∧
    pack_sensor_data [0xFF] [0] 1 = some [0xF8] := by
  refine ⟨?_, by decide⟩
  intro input output output_len
  simp only [pack_sensor_data, pack_final, outer_loop_mask]

/-- C5, as stated, fails: one symbol `0x00` packed into the one-byte buffer `[0xFF]` leaves
`[0xFF]`; the three unused low-order bits of the final byte are still 1. -/
theorem C5_padding_not_cleared :
    5 * [0x00].length % 8 ≠ 0 ∧
    pack_sensor_data [0x00] [0xFF] 1 = some [0xFF] ∧
    bit_of [0xFF] (bytes_needed [0x00].length - 1) 0 = true := by
  decide

/-- C5, amended: when `5 * N` is not a multiple of 8 and the buffer holds `ceil(5 * N / 8)`
bytes, packing completes and every unused low-order bit of the final byte (bit `b` with
`b < 8 - 5 * N % 8` of byte `ceil(5 * N / 8) - 1`) keeps the value it had before the call;
in particular it is 0 afterwards when it was 0 before. -/
theorem C5_padding_keeps_prior_bits (input output : List Nat) (output_len : Nat)
    (hpart : 5 * input.length % 8 ≠ 0) (hlen : bytes_needed input.length ≤ output.length) :
    ∃ out', pack_sensor_data input output output_len = some out' ∧
      ∀ b, b < 8 - 5 * input.length % 8 →
        bit_of out' (bytes_needed input.length - 1) b
          = bit_of output (bytes_needed input.length - 1) b := by
  obtain ⟨out', e, _, hb, _⟩ := pack_sensor_data_some input output output_len
    (fun m hm => lt_of_lt_of_le (visited_lt_bytes_needed _ m hm) hlen)
  refine ⟨out', e, ?_⟩
  intro b hb8
  have h := hb (bytes_needed input.length - 1) b (by omega)
  have hno : ¬ ∃ m, m < 5 * input.length ∧ bytes_needed input.length - 1 = m / 8 % 256 ∧
      b = 7 - m % 8 ∧ stream_bit input m = true := by
    rintro ⟨m, hm, hi, hbb, _⟩
    unfold bytes_needed at hi
    have h1 : m / 8 % 256 ≤ m / 8 := Nat.mod_le _ _
    have h2 : m / 8 ≤ 5 * input.length / 8 := Nat.div_le_div_right (le_of_lt hm)
    have h3 : m / 8 = 5 * input.length / 8 := by omega
    omega
  rw [Bool.eq_iff_iff, h]
  constructor
  · rintro (h1 | h2)
    · exact h1
    · exact absurd h2 hno
  · intro h1; exact Or.inl h1

/-- Witness for `C5_padding_keeps_prior_bits`: one symbol, prior content `0xFF`. -/
theorem C5_padding_keeps_prior_bits_witness :
    5 * [0x00].length % 8 ≠ 0 ∧ bytes_needed [0x00].length ≤ [0xFF].length ∧
    ∃ out', pack_sensor_data [0x00] [0xFF] 1 = some out' ∧
      ∀ b, b < 8 - 5 * [0x00].length % 8 →
        bit_of out' (bytes_needed [0x00].length - 1) b
          = bit_of [0xFF] (bytes_needed [0x00].length - 1) b :=
  ⟨by decide, by decide, C5_padding_keeps_prior_bits [0x00] [0xFF] 1 (by decide) (by decide)⟩

/-- C6, as stated, fails: `pack_sensor_data` returns `void`, so a call hands no byte count
to its caller.  The call on no symbols and the call on two zero symbols give the same result
on the buffer `[0, 0]`, while `ceil(5 * 0 / 8) = 0` and `ceil(5 * 2 / 8) = 2`: no function of
the result of a call is the number of bytes written. -/
theorem C6_no_count_returned :
    ¬ ∃ count : Option (List Nat) → Nat, ∀ (input output : List Nat) (output_len : Nat),
      count (pack_sensor_data input output output_len) = bytes_needed input.length := by
  rintro ⟨count, h⟩
  have h0 := h [] [0, 0] 2
  have h2 := h [0, 0] [0, 0] 2
  have e : pack_sensor_data [0, 0] [0, 0] 2 = pack_sensor_data [] [0, 0] 2 := by decide
  rw [e, h0] at h2
  exact absurd h2 (by decide)

/-- C6, amended: for an input of `N ≤ 409` symbols the bytes the packer stores into are the
first `ceil(5 * N / 8)` bytes of `output`: the call completes exactly when the buffer holds
that many bytes, and then the buffer keeps its length and every byte from index
`ceil(5 * N / 8)` on is unchanged.  Eight symbols `0x1F` fill exactly 5 bytes with `0xFF`
(Scenario C, Test 3). -/
theorem C6_bytes_touched (input output : List Nat) (output_len : Nat)
    (hN : input.length ≤ 409) :
    ((pack_sensor_data input output output_len).isSome
      ↔ bytes_needed input.length ≤ output.length) ∧
    (∀ out', pack_sensor_data input output output_len = some out' →
      out'.length = output.length ∧
      ∀ i, bytes_needed input.length ≤ i → out'.getD i 0 = output.getD i 0) ∧
    pack_sensor_data (List.replicate 8 0x1F) [0, 0, 0, 0, 0] 5
      = some [0xFF, 0xFF, 0xFF, 0xFF, 0xFF] := by
  have hnone : ¬ bytes_needed input.length ≤ output.length →
      pack_sensor_data input output output_len = none := by
    intro hlt
    apply pack_sensor_data_none
    refine ⟨8 * output.length, ?_, ?_⟩
    · unfold bytes_needed at hlt; omega
    · unfold bytes_needed at hlt; omega
  have hsome : bytes_needed input.length ≤ output.length →
      ∃ out', pack_sensor_data input output output_len = some out' ∧
        out'.length = output.length ∧
        ∀ i, bytes_needed input.length ≤ i → out'.getD i 0 = output.getD i 0 := by
    intro hle
    obtain ⟨out', e, l, _, hf⟩ := pack_sensor_data_some input output output_len
      (fun m hm => lt_of_lt_of_le (visited_lt_bytes_needed _ m hm) hle)
    refine ⟨out', e, l, ?_⟩
    intro i hi
    apply hf
    intro m hm
    have := visited_lt_bytes_needed _ m hm
    omega
  refine ⟨⟨?_, ?_⟩, ?_, by decide⟩
  · intro h
    by_contra hlt
    rw [hnone hlt] at h
    simp at h
  · intro hle
    obtain ⟨out', e, _⟩ := hsome hle
    rw [e]; rfl
  · intro out' e
    by_cases hle : bytes_needed input.length ≤ output.length
    · obtain ⟨out'', e', l, hf⟩ := hsome hle
      rw [e] at e'
      cases e'
      exact ⟨l, hf⟩
    · rw [hnone hle] at e
      cases e

/-- Witness for `C6_bytes_touched`: the eight symbols of Test 3. -/
theorem C6_bytes_touched_witness :
    (List.replicate 8 0x1F).length ≤ 409 ∧
    (((pack_sensor_data (List.replicate 8 0x1F) [0, 0, 0, 0, 0] 5).isSome
      ↔ bytes_needed (List.replicate 8 0x1F).length ≤ [0, 0, 0, 0, 0].length) ∧
    (∀ out', pack_sensor_data (List.replicate 8 0x1F) [0, 0, 0, 0, 0] 5 = some out' →
      out'.length = [0, 0, 0, 0, 0].length ∧
      ∀ i, bytes_needed (List.replicate 8 0x1F).length ≤ i →
        out'.getD i 0 = [0, 0, 0, 0, 0].getD i 0) ∧
    pack_sensor_data (List.replicate 8 0x1F) [0, 0, 0, 0, 0] 5
      = some [0xFF, 0xFF, 0xFF, 0xFF, 0xFF]) :=
  ⟨by decide, C6_bytes_touched (List.replicate 8 0x1F) [0, 0, 0, 0, 0] 5 (by decide)⟩

/-- C8, as stated, fails (Scenario F): three symbols need 2 bytes; with declared capacity 1
the call does not fail and the buffer `[0, 0]` becomes `[0xFF, 0xFE]`. -/
theorem C8_no_buffer_too_small :
    1 < bytes_needed [0x1F, 0x1F, 0x1F].length ∧
    pack_sensor_data [0x1F, 0x1F, 0x1F] [0, 0] 1 = some [0xFF, 0xFE] := by
  decide

/-- C8, amended: a declared capacity smaller than `ceil(5 * N / 8)` is not detected and
nothing is reported.  For an input of `N ≤ 409` symbols the packer stores past the declared
capacity (on the first `output_len` bytes alone the run leaves the buffer), and when the
buffer behind `output` holds `ceil(5 * N / 8)` bytes the call completes and packs every
symbol into it: stream bit `k` of the input is or-ed into bit `7 - k % 8` of byte `k / 8`,
every other bit of the bytes keeps its value, and the bytes from index `ceil(5 * N / 8)` on
are unchanged. -/
theorem C8_capacity_ignored (input output : List Nat) (output_len : Nat)
    (hsmall : output_len < bytes_needed input.length) (hN : input.length ≤ 409) :
    pack_sensor_data input (output.take output_len) output_len = none ∧
    (bytes_needed input.length ≤ output.length →
      ∃ out', pack_sensor_data input output output_len = some out' ∧
        out'.length = output.length ∧
        (∀ k, k < 5 * input.length →
          bit_of out' (k / 8) (7 - k % 8)
            = (bit_of output (k / 8) (7 - k % 8) || stream_bit input k)) ∧
        (∀ i b, b < 8 → 5 * input.length ≤ 8 * i + (7 - b) →
          bit_of out' i b = bit_of output i b) ∧
        ∀ i, bytes_needed input.length ≤ i → out'.getD i 0 = output.getD i 0) := by
  constructor
  · apply pack_sensor_data_none
    refine ⟨8 * output_len, ?_, ?_⟩
    · unfold bytes_needed at hsmall; omega
    · rw [List.length_take]
      unfold bytes_needed at hsmall
      omega
  · intro hle
    obtain ⟨out', e, l, hb, hf⟩ := pack_sensor_data_some input output output_len
      (fun m hm => lt_of_lt_of_le (visited_lt_bytes_needed _ m hm) hle)
    refine ⟨out', e, l, ?_, ?_, ?_⟩
    · intro k hk
      rw [Bool.eq_iff_iff, hb (k / 8) (7 - k % 8) (by omega), Bool.or_eq_true]
      constructor
      · rintro (h | ⟨m, hm, hi, hbb, hs⟩)
        · exact Or.inl h
        · have : m = k := by omega
          rw [← this]; exact Or.inr hs
      · rintro (h | hs)
        · exact Or.inl h
        · exact Or.inr ⟨k, hk, by omega, rfl, hs⟩
    · intro i b hb8 hout
      rw [Bool.eq_iff_iff, hb i b hb8]
      constructor
      · rintro (h | ⟨m, hm, hi, hbb, _⟩)
        · exact h
        · omega
      · intro h; exact Or.inl h
    · intro i hi
      apply hf
      intro m hm
      have := visited_lt_bytes_needed _ m hm
      omega

/-- Witness for `C8_capacity_ignored`: the three symbols and capacity 1 of Scenario F, with
two bytes behind `output`. -/
theorem C8_capacity_ignored_witness :
    1 < bytes_needed [0x1F, 0x1F, 0x1F].length ∧ [0x1F, 0x1F, 0x1F].length ≤ 409 ∧
    (pack_sensor_data [0x1F, 0x1F, 0x1F] ([0, 0].take 1) 1 = none ∧
    (bytes_needed [0x1F, 0x1F, 0x1F].length ≤ [0, 0].length →
      ∃ out', pack_sensor_data [0x1F, 0x1F, 0x1F] [0, 0] 1 = some out' ∧
        out'.length = [0, 0].length ∧
        (∀ k, k < 5 * [0x1F, 0x1F, 0x1F].length →
          bit_of out' (k / 8) (7 - k % 8)
            = (bit_of [0, 0] (k / 8) (7 - k % 8) || stream_bit [0x1F, 0x1F, 0x1F] k)) ∧
        (∀ i b, b < 8 → 5 * [0x1F, 0x1F, 0x1F].length ≤ 8 * i + (7 - b) →
          bit_of out' i b = bit_of [0, 0] i b) ∧
        ∀ i, bytes_needed [0x1F, 0x1F, 0x1F].length ≤ i →
          out'.getD i 0 = [0, 0].getD i 0)) :=
  ⟨by decide, by decide, C8_capacity_ignored [0x1F, 0x1F, 0x1F] [0, 0] 1 (by decide) (by decide)⟩

/-- C10 (Scenario D): for the empty input and every output buffer, packing completes and
the buffer is unchanged. -/
theorem C10_empty_input (output : List Nat) (output_len : Nat) :
    pack_sensor_data [] output output_len = some output := rfl

end BitStreaming

/-! # Priority bitmap: properties -/

namespace Scheduler

theorem clz_scan_spec (x : Nat) : ∀ n, (∃ i, i < n ∧ x.testBit i = true) →
    clz_scan n x < n ∧ x.testBit (n - 1 - clz_scan n x) = true ∧
      ∀ j, n - 1 - clz_scan n x < j → j < n → x.testBit j = false := by
  intro n
  induction n with
  | zero =>
    rintro ⟨i, hi, _⟩
    omega
  | succ n ih =>
    rintro ⟨i, hi, hbit⟩
    by_cases hn : x.testBit n = true
    · simp only [clz_scan, hn, if_true]
      refine ⟨by omega, by simpa using hn, ?_⟩
      intro j h1 h2
      omega
    · have hi' : i < n := by
        rcases Nat.lt_or_ge i n with h | h
        · exact h
        · have : i = n := by omega
          rw [this] at hbit
          exact absurd hbit hn
      obtain ⟨h1, h2, h3⟩ := ih ⟨i, hi', hbit⟩
      simp only [clz_scan, hn, Bool.false_eq_true, if_false]
      refine ⟨by simpa using h1, ?_, ?_⟩
      · have e : n + 1 - 1 - (clz_scan n x + 1) = n - 1 - clz_scan n x := by omega
        rw [e]; exact h2
      · intro j hj1 hj2
        by_cases hjn : j = n
        · rw [hjn]; simpa using hn
        · apply h3 j
          · simp at hj1; omega
          · omega

/-- C18: for every non-zero `ready_tasks_bitmap` (a `uint32_t`), `get_highest_priority_task`
returns the index of the highest set bit: an `i < 32` with bit `i` set and no bit above `i`
set. -/
theorem C18_highest_set_bit (bitmap : Nat) (hpos : bitmap ≠ 0) (hlt : bitmap < 2 ^ 32) :
    ∃ i : Nat, get_highest_priority_task bitmap = some (i : Int) ∧ i < 32 ∧
      bitmap.testBit i = true ∧ ∀ j, i < j → bitmap.testBit j = false := by
  have hex : ∃ i, i < 32 ∧ bitmap.testBit i = true := by
    obtain ⟨i, hi⟩ := Nat.ne_zero_implies_bit_true hpos
    refine ⟨i, ?_, hi⟩
    by_contra hge
    have h1 : bitmap < 2 ^ i := lt_of_lt_of_le hlt (Nat.pow_le_pow_right (by decide) (by omega))
    rw [Nat.testBit_lt_two_pow h1] at hi
    cases hi
  obtain ⟨h1, h2, h3⟩ := clz_scan_spec bitmap 32 hex
  refine ⟨31 - clz_scan 32 bitmap, ?_, by omega, by simpa using h2, ?_⟩
  · have hnn : ¬ ((bitmap : Int) < 0) := by omega
    simp only [get_highest_priority_task, hnn, if_false, builtin_clz, hpos, Option.map_some',
      to_int8]
    have e : (31 + 2 ^ 32 - clz_scan 32 bitmap) % 2 ^ 32 = 31 - clz_scan 32 bitmap := by omega
    rw [e]
    have e2 : (31 - clz_scan 32 bitmap) % 256 = 31 - clz_scan 32 bitmap := by omega
    rw [e2]
    have e3 : 31 - clz_scan 32 bitmap < 128 := by omega
    simp only [e3, if_true]
  · intro j hj
    by_cases hj32 : j < 32
    · exact h3 j (by simpa using hj) hj32
    · have hb : bitmap < 2 ^ j := lt_of_lt_of_le hlt (Nat.pow_le_pow_right (by decide) (by omega))
      exact Nat.testBit_lt_two_pow hb

/-- Witness for `C18_highest_set_bit`: the bitmap of the demo, bits 2, 5 and 12. -/
theorem C18_highest_set_bit_witness :
    (0x1024 : Nat) ≠ 0 ∧ (0x1024 : Nat) < 2 ^ 32 ∧
    ∃ i : Nat, get_highest_priority_task 0x1024 = some (i : Int) ∧ i < 32 ∧
      (0x1024 : Nat).testBit i = true ∧ ∀ j, i < j → (0x1024 : Nat).testBit j = false :=
  ⟨by decide, by decide, C18_highest_set_bit 0x1024 (by decide) (by decide)⟩

/-- C19, as stated, fails: after `set_task_ready(5)`, `set_task_ready(12)` and
`set_task_ready(2)` on the empty bitmap, `get_highest_priority_task` returns 12, not 21. -/
theorem C19_demo_returns_12_not_21 :
    get_highest_priority_task (set_task_ready (set_task_ready (set_task_ready 0 5) 12) 2)
      = some 12 ∧
    get_highest_priority_task (set_task_ready (set_task_ready (set_task_ready 0 5) 12) 2)
      ≠ some 21 := by
  decide

/-- C19, amended: starting from the empty bitmap, after `set_task_ready(5)`,
`set_task_ready(12)` and `set_task_ready(2)` the bitmap is `0x1024` and
`get_highest_priority_task` returns 12, the highest of the three priorities. -/
theorem C19_demo_returns_12 :
    set_task_ready (set_task_ready (set_task_ready 0 5) 12) 2 = 0x1024 ∧
    get_highest_priority_task (set_task_ready (set_task_ready (set_task_ready 0 5) 12) 2)
      = some 12 := by
  decide

theorem testBit_uint32_high (bitmap i : Nat) (hlt : bitmap < 2 ^ 32) (hi : 32 ≤ i) :
    bitmap.testBit i = false :=
  Nat.testBit_lt_two_pow (lt_of_lt_of_le hlt (Nat.pow_le_pow_right (by decide) hi))

theorem one_shift_mod (priority : Nat) (hp : priority < 32) :
    (1 <<< priority) % 2 ^ ULONG_BITS = 2 ^ priority := by
  rw [Nat.one_shiftLeft]
  apply Nat.mod_eq_of_lt
  exact Nat.pow_lt_pow_right (by decide) (by unfold ULONG_BITS; omega)

theorem set_task_ready_testBit (bitmap priority i : Nat) (hlt : bitmap < 2 ^ 32)
    (hp : priority < 32) :
    (set_task_ready bitmap priority).testBit i
      = if i = priority then true else bitmap.testBit i := by
  simp only [set_task_ready, hp, if_true, one_shift_mod priority hp]
  rw [Nat.testBit_mod_two_pow, Nat.testBit_lor, Nat.testBit_two_pow]
  by_cases hi : i < 32
  · by_cases hip : i = priority
    · subst hip; simp [hi]
    · have hpi : ¬ priority = i := fun e => hip e.symm
      simp [hi, hip, hpi]
  · have hip : ¬ i = priority := by omega
    simp [hi, hip, testBit_uint32_high bitmap i hlt (by omega)]

theorem clear_task_ready_testBit (bitmap priority i : Nat) (hlt : bitmap < 2 ^ 32)
    (hp : priority < 32) :
    (clear_task_ready bitmap priority).testBit i
      = if i = priority then false else bitmap.testBit i := by
  simp only [clear_task_ready, hp, if_true, one_shift_mod priority hp]
  have hlt64 : 2 ^ priority < 2 ^ ULONG_BITS :=
    Nat.pow_lt_pow_right (by decide) (by unfold ULONG_BITS; omega)
  rw [Nat.testBit_mod_two_pow, Nat.testBit_and, Nat.sub_sub, Nat.add_comm 1,
    Nat.testBit_two_pow_sub_succ hlt64, Nat.testBit_two_pow]
  by_cases hi : i < 32
  · have hi64 : i < ULONG_BITS := by unfold ULONG_BITS; omega
    by_cases hip : i = priority
    · subst hip; simp [hi]
    · have hpi : ¬ priority = i := fun e => hip e.symm
      simp [hi, hi64, hip, hpi]
  · have hip : ¬ i = priority := by omega
    simp [hi, hip, testBit_uint32_high bitmap i hlt (by omega)]

/-- C20: for every bitmap (a `uint32_t`) and priority, `set_task_ready` and
`clear_task_ready` change only bit `priority` of `ready_tasks_bitmap`, to 1 respectively
to 0, when `priority < 32`, every other bit keeping its value, and they leave the whole
bitmap unchanged when `priority ≥ 32`. -/
theorem C20_only_bit_priority_changes (bitmap priority : Nat) (hlt : bitmap < 2 ^ 32) :
    (priority < 32 →
      (∀ i, (set_task_ready bitmap priority).testBit i
        = if i = priority then true else bitmap.testBit i) ∧
      (∀ i, (clear_task_ready bitmap priority).testBit i
        = if i = priority then false else bitmap.testBit i) ∧
      set_task_ready bitmap priority < 2 ^ 32 ∧ clear_task_ready bitmap priority < 2 ^ 32) ∧
    (32 ≤ priority →
      set_task_ready bitmap priority = bitmap ∧ clear_task_ready bitmap priority = bitmap) := by
  constructor
  · intro hp
    refine ⟨fun i => set_task_ready_testBit bitmap priority i hlt hp,
      fun i => clear_task_ready_testBit bitmap priority i hlt hp, ?_, ?_⟩
    · simp only [set_task_ready, hp, if_true]
      exact Nat.mod_lt _ (by decide)
    · simp only [clear_task_ready, hp, if_true]
      exact Nat.mod_lt _ (by decide)
  · intro hp
    have hnp : ¬ priority < 32 := by omega
    simp only [set_task_ready, clear_task_ready, hnp, if_false, and_self]

/-- Witness for `C20_only_bit_priority_changes`: the bitmap `0x1024` and priority 12. -/
theorem C20_only_bit_priority_changes_witness :
    (0x1024 : Nat) < 2 ^ 32 ∧
    ((12 < 32 →
      (∀ i, (set_task_ready 0x1024 12).testBit i
        = if i = 12 then true else (0x1024 : Nat).testBit i) ∧
      (∀ i, (clear_task_ready 0x1024 12).testBit i
        = if i = 12 then false else (0x1024 : Nat).testBit i) ∧
      set_task_ready 0x1024 12 < 2 ^ 32 ∧ clear_task_ready 0x1024 12 < 2 ^ 32) ∧
    (32 ≤ 12 →
      set_task_ready 0x1024 12 = 0x1024 ∧ clear_task_ready 0x1024 12 = 0x1024)) :=
  ⟨by decide, C20_only_bit_priority_changes 0x1024 12 (by decide)⟩

end Scheduler

/-! # Button debouncer: properties -/

namespace Debounce

open button_state_t

theorem update_debounce_result (system_millis : Nat) (db : debouncer_t) (raw_level : Int) :
    (update_debounce system_millis db raw_level).2 = true
      ↔ (update_debounce system_millis db raw_level).1.state = STATE_PRESSED := by
  obtain ⟨st, lt, so⟩ := db
  cases st <;> by_cases hl : raw_level = BUTTON_PIN_HIGH <;>
    by_cases hd : DEBOUNCE_THRESHOLD_MS ≤ (system_millis + 4294967296 - lt) % 4294967296 <;>
    simp [update_debounce, update_switch, hl, hd]

theorem run_samples_take_succ : ∀ (samples : List (Nat × Int)) (db : debouncer_t) (n : Nat),
    n < samples.length →
    run_samples db (samples.take (n + 1))
      = (update_debounce (time_at samples n) (run_samples db (samples.take n))
          (level_at samples n)).1 := by
  intro samples
  induction samples with
  | nil => intro db n hn; simp at hn
  | cons x rest ih =>
    intro db n hn
    obtain ⟨t, lvl⟩ := x
    cases n with
    | zero => rfl
    | succ n =>
      have hn' : n < rest.length := by simpa using hn
      have := ih (update_debounce t db lvl).1 n hn'
      simpa [run_samples, time_at, level_at] using this

theorem trace_mem : ∀ (samples : List (Nat × Int)) (db : debouncer_t)
    (r : debouncer_t × Bool), r ∈ trace db samples →
    ∃ n, n < samples.length ∧
      r = update_debounce (time_at samples n) (run_samples db (samples.take n))
        (level_at samples n) := by
  intro samples
  induction samples with
  | nil => intro db r hr; simp [trace] at hr
  | cons x rest ih =>
    intro db r hr
    obtain ⟨t, lvl⟩ := x
    simp only [trace, List.mem_cons] at hr
    rcases hr with h | h
    · exact ⟨0, by simp, by rw [h]; rfl⟩
    · obtain ⟨n, hn, e⟩ := ih _ r h
      refine ⟨n + 1, by simpa using hn, ?_⟩
      rw [e]
      simp [run_samples, time_at, level_at]

theorem time_at_lt (samples : List (Nat × Int)) (ht : ∀ s ∈ samples, s.1 < 2 ^ 32) (k : Nat)
    (hk : k < samples.length) : time_at samples k < 2 ^ 32 := by
  unfold time_at
  rw [List.getD_eq_getElem?_getD, List.getElem?_eq_getElem hk]
  exact ht _ (List.getElem_mem hk)

theorem update_released_high (t : Nat) (db : debouncer_t) (lvl : Int)
    (hs : db.state = STATE_RELEASED) (hl : lvl = BUTTON_PIN_HIGH) :
    update_debounce t db lvl
      = ({ db with state := STATE_MAYBE_PRESSED, last_tick := t }, false) := by
  simp [update_debounce, update_switch, hs, hl]

theorem update_released_low (t : Nat) (db : debouncer_t) (lvl : Int)
    (hs : db.state = STATE_RELEASED) (hl : lvl ≠ BUTTON_PIN_HIGH) :
    update_debounce t db lvl = (db, false) := by
  simp [update_debounce, update_switch, hs, hl]

theorem update_maybe_pressed_low (t : Nat) (db : debouncer_t) (lvl : Int)
    (hs : db.state = STATE_MAYBE_PRESSED) (hl : lvl ≠ BUTTON_PIN_HIGH) :
    update_debounce t db lvl = ({ db with state := STATE_RELEASED }, false) := by
  simp [update_debounce, update_switch, hs, hl]

theorem update_maybe_pressed_short (t : Nat) (db : debouncer_t) (lvl : Int)
    (hs : db.state = STATE_MAYBE_PRESSED) (hl : lvl = BUTTON_PIN_HIGH)
    (hd : (t + 4294967296 - db.last_tick) % 4294967296 < 50) :
    update_debounce t db lvl = (db, false) := by
  have hd' : ¬ DEBOUNCE_THRESHOLD_MS ≤ (t + 4294967296 - db.last_tick) % 4294967296 := by
    unfold DEBOUNCE_THRESHOLD_MS; omega
  simp [update_debounce, update_switch, hs, hl, hd']

theorem update_pressed_high (t : Nat) (db : debouncer_t) (lvl : Int)
    (hs : db.state = STATE_PRESSED) (hl : lvl = BUTTON_PIN_HIGH) :
    update_debounce t db lvl = (db, true) := by
  simp [update_debounce, update_switch, hs, hl]

theorem update_pressed_low (t : Nat) (db : debouncer_t) (lvl : Int)
    (hs : db.state = STATE_PRESSED) (hl : lvl ≠ BUTTON_PIN_HIGH) :
    update_debounce t db lvl
      = ({ db with state := STATE_MAYBE_RELEASED, last_tick := t }, false) := by
  simp [update_debounce, update_switch, hs, hl]

theorem update_maybe_released_high (t : Nat) (db : debouncer_t) (lvl : Int)
    (hs : db.state = STATE_MAYBE_RELEASED) (hl : lvl = BUTTON_PIN_HIGH) :
    update_debounce t db lvl = ({ db with state := STATE_PRESSED }, true) := by
  simp [update_debounce, update_switch, hs, hl]

theorem update_maybe_released_short (t : Nat) (db : debouncer_t) (lvl : Int)
    (hs : db.state = STATE_MAYBE_RELEASED) (hl : lvl ≠ BUTTON_PIN_HIGH)
    (hd : (t + 4294967296 - db.last_tick) % 4294967296 < 50) :
    update_debounce t db lvl = (db, false) := by
  have hd' : ¬ DEBOUNCE_THRESHOLD_MS ≤ (t + 4294967296 - db.last_tick) % 4294967296 := by
    unfold DEBOUNCE_THRESHOLD_MS; omega
  simp [update_debounce, update_switch, hs, hl, hd']

/-- While the high runs are short, the debouncer started in `STATE_RELEASED` is, after `n`
samples, in `STATE_RELEASED` behind a low sample, or in `STATE_MAYBE_PRESSED` with
`last_tick` the time of the first sample of the current high run. -/
theorem noise_invariant (db : debouncer_t) (samples : List (Nat × Int))
    (hrel : db.state = STATE_RELEASED) (ht : ∀ s ∈ samples, s.1 < 2 ^ 32)
    (hshort : short_high_runs samples) : ∀ n, n ≤ samples.length →
    ((run_samples db (samples.take n)).state = STATE_RELEASED ∧
      (n = 0 ∨ level_at samples (n - 1) ≠ BUTTON_PIN_HIGH)) ∨
    ((run_samples db (samples.take n)).state = STATE_MAYBE_PRESSED ∧
      ∃ i, i < n ∧ high_run samples i (n - 1) ∧
        (run_samples db (samples.take n)).last_tick = time_at samples i) := by
  intro n
  induction n with
  | zero =>
    intro _
    exact Or.inl ⟨by simpa [run_samples] using hrel, Or.inl rfl⟩
  | succ n ih =>
    intro hn
    have hn' : n < samples.length := by omega
    rw [run_samples_take_succ samples db n hn']
    by_cases hl : level_at samples n = BUTTON_PIN_HIGH
    · rcases ih (by omega) with ⟨hs, hprev⟩ | ⟨hs, i, hi, hrun, htick⟩
      · rw [update_released_high _ _ _ hs hl]
        refine Or.inr ⟨rfl, n, by omega, ⟨?_, ?_⟩, rfl⟩
        · intro k hk1 hk2
          have : k = n := by omega
          rw [this]; exact hl
        · exact hprev
      · have hrun' : high_run samples i n := by
          refine ⟨?_, hrun.2⟩
          intro k hk1 hk2
          by_cases hkn : k = n
          · rw [hkn]; exact hl
          · exact hrun.1 k (by omega) hk2
        have hd := hshort n hn' i (by omega) hrun'
        have h1 := time_at_lt samples ht n hn'
        have h2 := time_at_lt samples ht i (by omega)
        rw [update_maybe_pressed_short _ _ _ hs hl (by rw [htick]; omega)]
        exact Or.inr ⟨hs, i, by omega, hrun', htick⟩
    · rcases ih (by omega) with ⟨hs, _⟩ | ⟨hs, _⟩
      · rw [update_released_low _ _ _ hs hl]
        exact Or.inl ⟨hs, Or.inr (by simpa using hl)⟩
      · rw [update_maybe_pressed_low _ _ _ hs hl]
        exact Or.inl ⟨rfl, Or.inr (by simpa using hl)⟩

/-- While the low runs are short, the debouncer started in `STATE_PRESSED` is, after `n`
samples, in `STATE_PRESSED` behind a high sample, or in `STATE_MAYBE_RELEASED` with
`last_tick` the time of the first sample of the current low run. -/
theorem bounce_invariant (db : debouncer_t) (samples : List (Nat × Int))
    (hpre : db.state = STATE_PRESSED) (ht : ∀ s ∈ samples, s.1 < 2 ^ 32)
    (hshort : short_low_runs samples) : ∀ n, n ≤ samples.length →
    ((run_samples db (samples.take n)).state = STATE_PRESSED ∧
      (n = 0 ∨ level_at samples (n - 1) = BUTTON_PIN_HIGH)) ∨
    ((run_samples db (samples.take n)).state = STATE_MAYBE_RELEASED ∧
      ∃ i, i < n ∧ low_run samples i (n - 1) ∧
        (run_samples db (samples.take n)).last_tick = time_at samples i) := by
  intro n
  induction n with
  | zero =>
    intro _
    exact Or.inl ⟨by simpa [run_samples] using hpre, Or.inl rfl⟩
  | succ n ih =>
    intro hn
    have hn' : n < samples.length := by omega
    rw [run_samples_take_succ samples db n hn']
    by_cases hl : level_at samples n = BUTTON_PIN_HIGH
    · rcases ih (by omega) with ⟨hs, _⟩ | ⟨hs, _⟩
      · rw [update_pressed_high _ _ _ hs hl]
        exact Or.inl ⟨hs, Or.inr (by simpa using hl)⟩
      · rw [update_maybe_released_high _ _ _ hs hl]
        exact Or.inl ⟨rfl, Or.inr (by simpa using hl)⟩
    · rcases ih (by omega) with ⟨hs, hprev⟩ | ⟨hs, i, hi, hrun, htick⟩
      · rw [update_pressed_low _ _ _ hs hl]
        refine Or.inr ⟨rfl, n, by omega, ⟨?_, ?_⟩, rfl⟩
        · intro k hk1 hk2
          have : k = n := by omega
          rw [this]; exact hl
        · exact hprev
      · have hrun' : low_run samples i n := by
          refine ⟨?_, hrun.2⟩
          intro k hk1 hk2
          by_cases hkn : k = n
          · rw [hkn]; exact hl
          · exact hrun.1 k (by omega) hk2
        have hd := hshort n hn' i (by omega) hrun'
        have h1 := time_at_lt samples ht n hn'
        have h2 := time_at_lt samples ht i (by omega)
        rw [update_maybe_released_short _ _ _ hs hl (by rw [htick]; omega)]
        exact Or.inr ⟨hs, i, by omega, hrun', htick⟩

/-- C14: for every debouncer state, time and raw level, `update_debounce` returns `true` if
and only if the state after the call is `STATE_PRESSED`. -/
theorem C14_result_iff_pressed (system_millis : Nat) (db : debouncer_t) (raw_level : Int) :
    (update_debounce system_millis db raw_level).2 = true
      ↔ (update_debounce system_millis db raw_level).1.state = STATE_PRESSED :=
  update_debounce_result system_millis db raw_level

/-- C15: noise shorter than the threshold is ignored.  For every sequence of samples applied
from `STATE_RELEASED` in which, within each maximal run of consecutive high samples, every
sample is less than 50 ms (modulo `2^32`) after the first sample of the run, every call of
`update_debounce` returns `false` and leaves a state other than `STATE_PRESSED`. -/
theorem C15_short_noise_ignored (db : debouncer_t) (samples : List (Nat × Int))
    (hrel : db.state = STATE_RELEASED) (ht : ∀ s ∈ samples, s.1 < 2 ^ 32)
    (hshort : short_high_runs samples) :
    ∀ r ∈ trace db samples, r.2 = false ∧ r.1.state ≠ STATE_PRESSED := by
  intro r hr
  obtain ⟨n, hn, e⟩ := trace_mem samples db r hr
  have hst : r.1.state ≠ STATE_PRESSED := by
    rw [e, ← run_samples_take_succ samples db n hn]
    rcases noise_invariant db samples hrel ht hshort (n + 1) (by omega) with ⟨h, _⟩ | ⟨h, _⟩ <;>
      rw [h] <;> decide
  refine ⟨?_, hst⟩
  rw [e] at hst ⊢
  rw [← Bool.not_eq_true]
  intro hres
  exact hst ((update_debounce_result _ _ _).mp hres)

/-- Witness for `C15_short_noise_ignored`: Scenario 1 of `main`, high at 10 and low at 20. -/
theorem C15_short_noise_ignored_witness :
    (debouncer_t.mk STATE_RELEASED 0 false).state = STATE_RELEASED ∧
    (∀ s ∈ [((10 : Nat), (1 : Int)), (20, 0)], s.1 < 2 ^ 32) ∧
    short_high_runs [(10, 1), (20, 0)] ∧
    ∀ r ∈ trace (debouncer_t.mk STATE_RELEASED 0 false) [(10, 1), (20, 0)],
      r.2 = false ∧ r.1.state ≠ STATE_PRESSED :=
  ⟨rfl, by decide, by decide,
    C15_short_noise_ignored (debouncer_t.mk STATE_RELEASED 0 false) [(10, 1), (20, 0)] rfl
      (by decide) (by decide)⟩

/-- C16: from `STATE_RELEASED`, a high sample at time `t0` followed by a high sample at time
`t1` with `(t1 - t0) mod 2^32 ≥ 50` makes the second call return `true` and leaves the state
`STATE_PRESSED`. -/
theorem C16_valid_press (db : debouncer_t) (t0 t1 : Nat) (hrel : db.state = STATE_RELEASED)
    (h0 : t0 < 2 ^ 32) (h1 : t1 < 2 ^ 32)
    (hdiff : ((t1 : Int) - (t0 : Int)) % 2 ^ 32 ≥ 50) :
    (update_debounce t1 (update_debounce t0 db BUTTON_PIN_HIGH).1 BUTTON_PIN_HIGH).2 = true ∧
    (update_debounce t1 (update_debounce t0 db BUTTON_PIN_HIGH).1 BUTTON_PIN_HIGH).1.state
      = STATE_PRESSED := by
  obtain ⟨st, lt, so⟩ := db
  simp only at hrel
  subst hrel
  have hd : DEBOUNCE_THRESHOLD_MS ≤ (t1 + 4294967296 - t0) % 4294967296 := by
    unfold DEBOUNCE_THRESHOLD_MS
    omega
  simp [update_debounce, update_switch, hd]

/-- Witness for `C16_valid_press`: Scenario 2 of `main`, high at 100 and at 160. -/
theorem C16_valid_press_witness :
    (debouncer_t.mk STATE_RELEASED 0 false).state = STATE_RELEASED ∧
    (100 : Nat) < 2 ^ 32 ∧ (160 : Nat) < 2 ^ 32 ∧
    (((160 : Nat) : Int) - ((100 : Nat) : Int)) % 2 ^ 32 ≥ 50 ∧
    (update_debounce 160 (update_debounce 100 (debouncer_t.mk STATE_RELEASED 0 false)
      BUTTON_PIN_HIGH).1 BUTTON_PIN_HIGH).2 = true ∧
    (update_debounce 160 (update_debounce 100 (debouncer_t.mk STATE_RELEASED 0 false)
      BUTTON_PIN_HIGH).1 BUTTON_PIN_HIGH).1.state = STATE_PRESSED :=
  ⟨rfl, by decide, by decide, by decide,
    C16_valid_press (debouncer_t.mk STATE_RELEASED 0 false) 100 160 rfl (by decide) (by decide)
      (by decide)⟩

/-- C17: release bounce keeps the button pressed.  For every sequence of samples applied from
`STATE_PRESSED` in which, within each maximal run of consecutive low samples, every sample
is less than 50 ms (modulo `2^32`) after the first sample of the run, no call of
`update_debounce` leaves the state `STATE_RELEASED`. -/
theorem C17_release_bounce_stays_pressed (db : debouncer_t) (samples : List (Nat × Int))
    (hpre : db.state = STATE_PRESSED) (ht : ∀ s ∈ samples, s.1 < 2 ^ 32)
    (hshort : short_low_runs samples) :
    ∀ r ∈ trace db samples, r.1.state ≠ STATE_RELEASED := by
  intro r hr
  obtain ⟨n, hn, e⟩ := trace_mem samples db r hr
  rw [e, ← run_samples_take_succ samples db n hn]
  rcases bounce_invariant db samples hpre ht hshort (n + 1) (by omega) with ⟨h, _⟩ | ⟨h, _⟩ <;>
    rw [h] <;> decide

/-- Witness for `C17_release_bounce_stays_pressed`: Scenario 3 of `main`, low at 200, high
at 210, low at 270, from the pressed state Scenario 2 leaves. -/
theorem C17_release_bounce_stays_pressed_witness :
    (debouncer_t.mk STATE_PRESSED 100 false).state = STATE_PRESSED ∧
    (∀ s ∈ [((200 : Nat), (0 : Int)), (210, 1), (270, 0)], s.1 < 2 ^ 32) ∧
    short_low_runs [(200, 0), (210, 1), (270, 0)] ∧
    ∀ r ∈ trace (debouncer_t.mk STATE_PRESSED 100 false) [(200, 0), (210, 1), (270, 0)],
      r.1.state ≠ STATE_RELEASED :=
  ⟨rfl, by decide, by decide,
    C17_release_bounce_stays_pressed (debouncer_t.mk STATE_PRESSED 100 false)
      [(200, 0), (210, 1), (270, 0)] rfl (by decide) (by decide)⟩

end Debounce

/-! # Ring buffer: properties -/

namespace CircularBuffer

open cb_status_t

theorem mod_cases (a c : Nat) (ha : a < 2 * c) :
    a % c = if a < c then a else a - c := by
  by_cases h : a < c
  · simp only [h, if_true]; exact Nat.mod_eq_of_lt h
  · simp only [h, if_false]
    rw [Nat.mod_eq_sub_mod (by omega)]
    exact Nat.mod_eq_of_lt (by omega)

theorem stored_count_eq (cb : circ_buf_t) (h : consistent cb) :
    stored_count cb
      = if cb.tail < cb.head then cb.tail + cb.capacity - cb.head else cb.tail - cb.head := by
  obtain ⟨h0, h1, h2, _⟩ := h
  unfold stored_count
  rw [mod_cases _ _ (by omega)]
  split_ifs <;> omega

theorem next_eq (i c : Nat) (hc : 0 < c) (hi : i < c) :
    (i + 1) % c = if i + 1 < c then i + 1 else 0 := by
  rw [mod_cases _ _ (by omega)]
  split_ifs <;> omega

theorem slots_length (buffer : List Nat) (c : Nat) : ∀ (n h : Nat),
    (slots buffer c h n).length = n := by
  intro n
  induction n with
  | zero => intro h; rfl
  | succ n ih => intro h; simp [slots, ih]

theorem contents_length (cb : circ_buf_t) : (contents cb).length = stored_count cb :=
  slots_length _ _ _ _

theorem stored_count_le (cb : circ_buf_t) (h : consistent cb) :
    stored_count cb ≤ cb.capacity - 1 := by
  have := Nat.mod_lt (cb.tail + cb.capacity - cb.head) h.1
  unfold stored_count
  omega

theorem getD_set_self (buffer : List Nat) (t x : Nat) (ht : t < buffer.length) :
    (buffer.set t x).getD t 0 = x := by
  rw [List.getD_eq_getElem?_getD, List.getElem?_set]
  simp [ht]

theorem getD_set_ne (buffer : List Nat) (t x i : Nat) (hi : i ≠ t) :
    (buffer.set t x).getD i 0 = buffer.getD i 0 := by
  rw [List.getD_eq_getElem?_getD, List.getD_eq_getElem?_getD,
    List.getElem?_set_ne (fun e => hi e.symm)]

/-- Storing at the slot just behind `n` stored elements appends to them. -/
theorem slots_set_snoc (buffer : List Nat) (c t x : Nat) (htl : t < buffer.length) :
    ∀ (n h : Nat), h < c → n < c → t = (h + n) % c →
      slots (buffer.set t x) c h (n + 1) = slots buffer c h n ++ [x] := by
  intro n
  induction n with
  | zero =>
    intro h hh _ ht
    have e : t = h := by rw [ht, Nat.add_zero, Nat.mod_eq_of_lt hh]
    subst e
    show (buffer.set t x).getD t 0 :: [] = [] ++ [x]
    rw [getD_set_self _ _ _ htl]
    rfl
  | succ n ih =>
    intro h hh hn ht
    have hne : h ≠ t := by
      rw [ht, mod_cases _ _ (by omega)]
      split_ifs <;> omega
    have hc : 0 < c := by omega
    have hstep := ih ((h + 1) % c) (Nat.mod_lt _ hc) (by omega) (by
      rw [ht, Nat.mod_add_mod]; congr 1; omega)
    rw [show slots (buffer.set t x) c h (n + 1 + 1)
        = (buffer.set t x).getD h 0 :: slots (buffer.set t x) c ((h + 1) % c) (n + 1) from rfl,
      hstep, getD_set_ne _ _ _ _ hne]
    rfl

theorem push_spec (cb : circ_buf_t) (x : Nat) (h : consistent cb) :
    (stored_count cb = cb.capacity - 1 ∧ circ_buf_push cb x = some (cb, CB_FULL)) ∨
    (stored_count cb < cb.capacity - 1 ∧
      ∃ cb1, circ_buf_push cb x = some (cb1, CB_OK) ∧ consistent cb1 ∧
        cb1.capacity = cb.capacity ∧ contents cb1 = contents cb ++ [x] ∧
        stored_count cb1 = stored_count cb + 1) := by
  have hcount := stored_count_eq cb h
  obtain ⟨h0, h1, h2, h3⟩ := h
  have hne : ¬ cb.capacity = 0 := by omega
  have hnext := next_eq cb.tail cb.capacity h0 h2
  by_cases hfull : (cb.tail + 1) % cb.capacity = cb.head
  · left
    refine ⟨?_, by simp only [circ_buf_push, hne, if_false, hfull, if_true]⟩
    rw [hcount]
    rw [hnext] at hfull
    split_ifs at hfull ⊢ <;> omega
  · right
    have htl : cb.tail < cb.buffer.length := by omega
    have hlt : stored_count cb < cb.capacity - 1 := by
      rw [hcount]
      rw [hnext] at hfull
      split_ifs at hfull ⊢ <;> omega
    refine ⟨hlt, ⟨cb.buffer.set cb.tail x, cb.head, (cb.tail + 1) % cb.capacity, cb.capacity⟩,
      by simp only [circ_buf_push, hne, if_false, hfull, htl, if_true], ?_, rfl, ?_, ?_⟩
    · exact ⟨h0, h1, Nat.mod_lt _ h0, by simpa using h3⟩
    · have hc1 : stored_count (circ_buf_t.mk (cb.buffer.set cb.tail x) cb.head
          ((cb.tail + 1) % cb.capacity) cb.capacity) = stored_count cb + 1 := by
        rw [hcount]
        simp only [stored_count]
        rw [hnext, mod_cases _ _ (by split_ifs <;> omega)]
        rw [hnext] at hfull
        split_ifs at hfull ⊢ <;> omega
      have htail : cb.tail = (cb.head + stored_count cb) % cb.capacity := by
        rw [hcount, mod_cases _ _ (by split_ifs <;> omega)]
        split_ifs <;> omega
      show slots (cb.buffer.set cb.tail x) cb.capacity cb.head _ = contents cb ++ [x]
      rw [hc1]
      exact slots_set_snoc cb.buffer cb.capacity cb.tail x htl (stored_count cb) cb.head h1
        (by omega) htail
    · rw [hcount]
      simp only [stored_count]
      rw [hnext, mod_cases _ _ (by split_ifs <;> omega)]
      rw [hnext] at hfull
      split_ifs at hfull ⊢ <;> omega

theorem pop_spec (cb : circ_buf_t) (h : consistent cb) :
    (stored_count cb = 0 ∧ circ_buf_pop cb false = some (cb, CB_EMPTY, none)) ∨
    (0 < stored_count cb ∧
      ∃ cb1 v, circ_buf_pop cb false = some (cb1, CB_OK, some v) ∧ consistent cb1 ∧
        cb1.capacity = cb.capacity ∧ contents cb = v :: contents cb1 ∧
        stored_count cb = stored_count cb1 + 1) := by
  have hcount := stored_count_eq cb h
  obtain ⟨h0, h1, h2, h3⟩ := h
  have hne : ¬ cb.capacity = 0 := by omega
  have hnext := next_eq cb.head cb.capacity h0 h1
  by_cases hempty : cb.tail = cb.head
  · left
    refine ⟨?_, by simp only [circ_buf_pop, hempty, if_true]⟩
    rw [hcount]
    split_ifs <;> omega
  · right
    have hhl : cb.head < cb.buffer.length := by omega
    have hpos : 0 < stored_count cb := by
      rw [hcount]
      split_ifs <;> omega
    have hc1 : stored_count cb = stored_count (circ_buf_t.mk cb.buffer
        ((cb.head + 1) % cb.capacity) cb.tail cb.capacity) + 1 := by
      rw [hcount]
      simp only [stored_count]
      rw [hnext, mod_cases _ _ (by split_ifs <;> omega)]
      split_ifs <;> omega
    refine ⟨hpos, ⟨cb.buffer, (cb.head + 1) % cb.capacity, cb.tail, cb.capacity⟩,
      cb.buffer[cb.head], ?_, ⟨h0, Nat.mod_lt _ h0, h2, h3⟩, rfl, ?_, hc1⟩
    · simp [circ_buf_pop, hempty, hhl, hne]
    · show slots cb.buffer cb.capacity cb.head (stored_count cb) = _
      rw [hc1]
      have hg : cb.buffer.getD cb.head 0 = cb.buffer[cb.head] := by
        rw [List.getD_eq_getElem?_getD, List.getElem?_eq_getElem hhl]; rfl
      rw [← hg]
      rfl

theorem pop_null_spec (cb : circ_buf_t) (h : consistent cb) :
    (stored_count cb = 0 ∧ circ_buf_pop cb true = some (cb, CB_EMPTY, none)) ∨
    (0 < stored_count cb ∧
      ∃ cb1 v, circ_buf_pop cb true = some (cb1, CB_OK, none) ∧ consistent cb1 ∧
        cb1.capacity = cb.capacity ∧ contents cb = v :: contents cb1 ∧
        stored_count cb = stored_count cb1 + 1) := by
  have hne : ¬ cb.capacity = 0 := by have := h.1; omega
  have hhl : cb.head < cb.buffer.length := by have := h.2.1; have := h.2.2.2; omega
  by_cases hempty : cb.tail = cb.head
  · rcases pop_spec cb h with ⟨hz, _⟩ | ⟨_, cb1, v, e, _⟩
    · exact Or.inl ⟨hz, by simp only [circ_buf_pop, hempty, if_true]⟩
    · simp [circ_buf_pop, hempty] at e
  · rcases pop_spec cb h with ⟨_, e⟩ | ⟨hpos, cb1, v, e, hc1, hcap, hcont, hn⟩
    · simp [circ_buf_pop, hempty, hhl, hne] at e
    · right
      have e1 : cb1 = ⟨cb.buffer, (cb.head + 1) % cb.capacity, cb.tail, cb.capacity⟩ := by
        simp [circ_buf_pop, hempty, hhl, hne] at e
        exact e.1.symm
      refine ⟨hpos, cb1, v, ?_, hc1, hcap, hcont, hn⟩
      rw [e1]
      simp [circ_buf_pop, hempty, hne]

/-- A run from a consistent handle completes and keeps the handle consistent.  With
`removed` the elements the successful pops took out, oldest first, the stored elements are
those stored before, followed by the pushed values, less `removed` at the front; when every
pop passes a non-null `data` the delivered values are `removed`. -/
theorem run_calls_spec : ∀ (calls : List cb_call) (cb : circ_buf_t), consistent cb →
    ∃ cb' events removed, run_calls cb calls = some (cb', events) ∧ consistent cb' ∧
      cb'.capacity = cb.capacity ∧
      contents cb ++ pushed_values events = removed ++ contents cb' ∧
      successful_pushes events = (pushed_values events).length ∧
      successful_pops events = removed.length ∧
      ((∀ c ∈ calls, c ≠ cb_call.pop true) → popped_values events = removed) := by
  intro calls
  induction calls with
  | nil =>
    intro cb h
    exact ⟨cb, [], [], rfl, h, rfl, by simp [pushed_values], rfl, rfl, fun _ => rfl⟩
  | cons c rest ih =>
    intro cb h
    have hrest : (∀ c' ∈ c :: rest, c' ≠ cb_call.pop true) →
        ∀ c' ∈ rest, c' ≠ cb_call.pop true :=
      fun hall c' hc' => hall c' (List.mem_cons_of_mem _ hc')
    cases c with
    | push data =>
      rcases push_spec cb data h with ⟨_, e⟩ | ⟨_, cb1, e, hc1, hcap, hcont, _⟩
      · obtain ⟨cb', events, removed, er, hc', hcap', hq, n1, n2, hd⟩ := ih cb h
        refine ⟨cb', (cb_call.push data, CB_FULL, none) :: events, removed, ?_, hc', hcap',
          ?_, ?_, ?_, ?_⟩
        · simp only [run_calls, e, Option.some_bind, er, Option.map_some']
        · simpa [pushed_values] using hq
        · simpa [successful_pushes, pushed_values] using n1
        · simpa [successful_pops] using n2
        · intro hall
          simpa [popped_values] using hd (hrest hall)
      · obtain ⟨cb', events, removed, er, hc', hcap', hq, n1, n2, hd⟩ := ih cb1 hc1
        refine ⟨cb', (cb_call.push data, CB_OK, none) :: events, removed, ?_, hc',
          by rw [hcap', hcap], ?_, ?_, ?_, ?_⟩
        · simp only [run_calls, e, Option.some_bind, er, Option.map_some']
        · rw [hcont] at hq
          simpa [pushed_values] using hq
        · simpa [successful_pushes, pushed_values] using n1
        · simpa [successful_pops] using n2
        · intro hall
          simpa [popped_values] using hd (hrest hall)
    | pop data_null =>
      cases data_null with
      | false =>
        rcases pop_spec cb h with ⟨_, e⟩ | ⟨_, cb1, v, e, hc1, hcap, hcont, _⟩
        · obtain ⟨cb', events, removed, er, hc', hcap', hq, n1, n2, hd⟩ := ih cb h
          refine ⟨cb', (cb_call.pop false, CB_EMPTY, none) :: events, removed, ?_, hc', hcap',
            ?_, ?_, ?_, ?_⟩
          · simp only [run_calls, e, Option.some_bind, er, Option.map_some']
          · simpa [pushed_values] using hq
          · simpa [successful_pushes, pushed_values] using n1
          · simpa [successful_pops] using n2
          · intro hall
            simpa [popped_values] using hd (hrest hall)
        · obtain ⟨cb', events, removed, er, hc', hcap', hq, n1, n2, hd⟩ := ih cb1 hc1
          refine ⟨cb', (cb_call.pop false, CB_OK, some v) :: events, v :: removed, ?_, hc',
            by rw [hcap', hcap], ?_, ?_, ?_, ?_⟩
          · simp only [run_calls, e, Option.some_bind, er, Option.map_some']
          · rw [hcont]
            simpa [pushed_values] using hq
          · simpa [successful_pushes, pushed_values] using n1
          · simpa [successful_pops] using n2
          · intro hall
            simpa [popped_values] using hd (hrest hall)
      | true =>
        rcases pop_null_spec cb h with ⟨_, e⟩ | ⟨_, cb1, v, e, hc1, hcap, hcont, _⟩
        · obtain ⟨cb', events, removed, er, hc', hcap', hq, n1, n2, hd⟩ := ih cb h
          refine ⟨cb', (cb_call.pop true, CB_EMPTY, none) :: events, removed, ?_, hc', hcap',
            ?_, ?_, ?_, ?_⟩
          · simp only [run_calls, e, Option.some_bind, er, Option.map_some']
          · simpa [pushed_values] using hq
          · simpa [successful_pushes, pushed_values] using n1
          · simpa [successful_pops] using n2
          · intro hall
            exact absurd rfl (hall _ (List.mem_cons_self _ _))
        · obtain ⟨cb', events, removed, er, hc', hcap', hq, n1, n2, hd⟩ := ih cb1 hc1
          refine ⟨cb', (cb_call.pop true, CB_OK, none) :: events, v :: removed, ?_, hc',
            by rw [hcap', hcap], ?_, ?_, ?_, ?_⟩
          · simp only [run_calls, e, Option.some_bind, er, Option.map_some']
          · rw [hcont]
            simpa [pushed_values] using hq
          · simpa [successful_pushes, pushed_values] using n1
          · simpa [successful_pops] using n2
          · intro hall
            exact absurd rfl (hall _ (List.mem_cons_self _ _))

theorem consistent_init (raw_mem : List Nat) (cap : Nat) (hcap : 0 < cap)
    (hmem : cap ≤ raw_mem.length) : consistent (circ_buf_init raw_mem cap) :=
  ⟨hcap, hcap, hcap, hmem⟩

theorem contents_init (raw_mem : List Nat) (cap : Nat) :
    contents (circ_buf_init raw_mem cap) = [] := by
  simp [contents, stored_count, circ_buf_init, slots]

/-- The run from `circ_buf_init`: it completes; the stored elements are the pushed values
less as many at the front as there were successful pops, which are the delivered values
when every pop passes a non-null `data`. -/
theorem run_from_init (raw_mem : List Nat) (cap : Nat) (calls : List cb_call)
    (hcap : 0 < cap) (hmem : cap ≤ raw_mem.length) :
    ∃ cb' events, run_calls (circ_buf_init raw_mem cap) calls = some (cb', events) ∧
      consistent cb' ∧ cb'.capacity = cap ∧
      (pushed_values events).drop (successful_pops events) = contents cb' ∧
      successful_pushes events = successful_pops events + stored_count cb' ∧
      ((∀ c ∈ calls, c ≠ cb_call.pop true) →
        pushed_values events = popped_values events ++ contents cb') := by
  obtain ⟨cb', events, removed, er, hc, hcap', hq, n1, n2, hd⟩ :=
    run_calls_spec calls _ (consistent_init raw_mem cap hcap hmem)
  rw [contents_init, List.nil_append] at hq
  refine ⟨cb', events, er, hc, hcap', ?_, ?_, ?_⟩
  · rw [hq, n2, List.drop_left]
  · rw [n1, n2, hq, List.length_append, contents_length]
  · intro hall
    rw [hd hall]; exact hq

/-- C12, as stated, fails: on a buffer initialised with capacity 4 the first three pushes
return `CB_OK`, and the fourth push already returns `CB_FULL`, with three elements stored. -/
theorem C12_fourth_push_is_full :
    (run_calls (circ_buf_init [0, 0, 0, 0] 4)
        [cb_call.push 1, cb_call.push 2, cb_call.push 3, cb_call.push 4, cb_call.push 5]).map
      (fun r => (statuses r.2, contents r.1))
      = some ([CB_OK, CB_OK, CB_OK, CB_FULL, CB_FULL], [1, 2, 3]) := by
  decide

/-- C12, amended: a ring buffer initialised with capacity `cap` holds up to `cap - 1`
elements.  After every sequence of calls the number of stored elements (successful pushes
less successful pops) is at most `cap - 1`, and `circ_buf_push` returns `CB_OK` when fewer
than `cap - 1` elements are stored and `CB_FULL` exactly when `cap - 1` are stored. -/
theorem C12_holds_cap_minus_one (raw_mem : List Nat) (cap : Nat) (calls : List cb_call)
    (x : Nat) (hcap : 2 ≤ cap) (hmem : cap ≤ raw_mem.length) :
    ∃ cb' events, run_calls (circ_buf_init raw_mem cap) calls = some (cb', events) ∧
      successful_pops events ≤ successful_pushes events ∧
      successful_pushes events - successful_pops events ≤ cap - 1 ∧
      ∃ cb'' st, circ_buf_push cb' x = some (cb'', st) ∧
        (st = CB_OK ↔ successful_pushes events - successful_pops events < cap - 1) ∧
        (st = CB_FULL ↔ successful_pushes events - successful_pops events = cap - 1) := by
  obtain ⟨cb', events, er, hc, hcap', _, hn, _⟩ :=
    run_from_init raw_mem cap calls (by omega) hmem
  have hle := stored_count_le cb' hc
  rw [hcap'] at hle
  refine ⟨cb', events, er, by omega, by omega, ?_⟩
  rcases push_spec cb' x hc with ⟨hfull, e⟩ | ⟨hlt, cb1, e, _⟩
  · rw [hcap'] at hfull
    refine ⟨cb', CB_FULL, e, ?_, ?_⟩
    · constructor
      · intro h; cases h
      · intro h; omega
    · constructor
      · intro _; omega
      · intro _; rfl
  · rw [hcap'] at hlt
    refine ⟨cb1, CB_OK, e, ?_, ?_⟩
    · constructor
      · intro _; omega
      · intro _; rfl
    · constructor
      · intro h; cases h
      · intro h; omega

/-- Witness for `C12_holds_cap_minus_one`: capacity 4, after three pushes. -/
theorem C12_holds_cap_minus_one_witness :
    2 ≤ 4 ∧ 4 ≤ [0, 0, 0, 0].length ∧
    ∃ cb' events, run_calls (circ_buf_init [0, 0, 0, 0] 4)
        [cb_call.push 1, cb_call.push 2, cb_call.push 3] = some (cb', events) ∧
      successful_pops events ≤ successful_pushes events ∧
      successful_pushes events - successful_pops events ≤ 4 - 1 ∧
      ∃ cb'' st, circ_buf_push cb' 4 = some (cb'', st) ∧
        (st = CB_OK ↔ successful_pushes events - successful_pops events < 4 - 1) ∧
        (st = CB_FULL ↔ successful_pushes events - successful_pops events = 4 - 1) :=
  ⟨by decide, by decide,
    C12_holds_cap_minus_one [0, 0, 0, 0] 4 [cb_call.push 1, cb_call.push 2, cb_call.push 3] 4
      (by decide) (by decide)⟩

end CircularBuffer

/-! # Coffee machine state machine: properties -/

namespace StateMachines

open State_t Event_t

/-- C21: brew cycle.  For every `CoffeeMachine` in `STATE_IDLE` with `waterLevel > 10`,
`FSM_Update` with `EVENT_START_PRESSED`, then `EVENT_TEMP_REACHED`, then
`EVENT_BREW_COMPLETE` moves the state to `STATE_HEATING`, then `STATE_BREWING`, then back to
`STATE_IDLE`; the machine after the cycle is the machine before it. -/
theorem C21_brew_cycle (m : CoffeeMachine) (hidle : m.currentState = STATE_IDLE)
    (hwater : m.waterLevel > 10) :
    (FSM_Update m EVENT_START_PRESSED).currentState = STATE_HEATING ∧
    (FSM_Update (FSM_Update m EVENT_START_PRESSED) EVENT_TEMP_REACHED).currentState
      = STATE_BREWING ∧
    (FSM_Update (FSM_Update (FSM_Update m EVENT_START_PRESSED) EVENT_TEMP_REACHED)
      EVENT_BREW_COMPLETE).currentState = STATE_IDLE ∧
    FSM_Update (FSM_Update (FSM_Update m EVENT_START_PRESSED) EVENT_TEMP_REACHED)
      EVENT_BREW_COMPLETE = m := by
  obtain ⟨st, wl, ct⟩ := m
  simp only at hidle hwater
  subst hidle
  simp [FSM_Update, hwater]

/-- Witness for `C21_brew_cycle`: the machine of `main`, idle with water level 100 and
temperature 20. -/
theorem C21_brew_cycle_witness :
    (CoffeeMachine.mk STATE_IDLE 100 20).currentState = STATE_IDLE ∧
    (CoffeeMachine.mk STATE_IDLE 100 20).waterLevel > 10 ∧
    ((FSM_Update (CoffeeMachine.mk STATE_IDLE 100 20) EVENT_START_PRESSED).currentState
      = STATE_HEATING ∧
    (FSM_Update (FSM_Update (CoffeeMachine.mk STATE_IDLE 100 20) EVENT_START_PRESSED)
      EVENT_TEMP_REACHED).currentState = STATE_BREWING ∧
    (FSM_Update (FSM_Update (FSM_Update (CoffeeMachine.mk STATE_IDLE 100 20)
      EVENT_START_PRESSED) EVENT_TEMP_REACHED) EVENT_BREW_COMPLETE).currentState
      = STATE_IDLE ∧
    FSM_Update (FSM_Update (FSM_Update (CoffeeMachine.mk STATE_IDLE 100 20)
      EVENT_START_PRESSED) EVENT_TEMP_REACHED) EVENT_BREW_COMPLETE
      = CoffeeMachine.mk STATE_IDLE 100 20) :=
  ⟨rfl, by decide,
    C21_brew_cycle (CoffeeMachine.mk STATE_IDLE 100 20) rfl (by decide)⟩

end StateMachines
